import Mathlib

/-!
Verification of the grammar-modeling core of the booze-tools repository
(`boozetools/parsing/context_free.py`), shallowly embedded in Lean 4.

Python sets are embedded as `Finset String`; Python dicts as association
lists (`List (String × _)`); Python lists as Lean lists.  Mutating methods
are embedded as functions returning the updated state together with an
optional fault, because a Python method that raises after mutating leaves
its mutations in place.  The worklist in `find_first_and_epsilon` pops from
the end of a Python list; we store it reversed, so the top of the stack is
the head of the Lean list (`pop` = tail, `append x` = `x :: ·`,
`extend xs` = `xs.reverse ++ ·`).

The repository's `support/foundation.py` is not part of the provided
sources: the helpers `allocate`, `transitive_closure` and
`strongly_connected_components_hashable` are modelled from the spec where
they are first needed below.
-/

namespace Booze

/-- The four associativity markers `LEFT, RIGHT, NONASSOC, BOGUS` of
`context_free.py`, which are opaque sentinel objects in the source. -/
inductive Assoc where
  | LEFT
  | RIGHT
  | NONASSOC
  | BOGUS
deriving DecidableEq, Inhabited

/-- The `places` argument of `ContextFreeGrammar.rule`: either a bare
integer index (renaming/bracketing rules) or a list/tuple of indices. -/
inductive Places where
  | pos (n : Int)
  | many (ps : List Int)
deriving DecidableEq, Inhabited

/-- The faults of `context_free.py` (subclasses of `Fault`), together with
the built-in Python exceptions the module can raise (`AssertionError` from
`assert`, `KeyError` from dict indexing, `IndexError` from list indexing). -/
inductive Err where
  | NonTerminalsCannotHavePrecedence (s : String)
  | PrecedenceDeclaredTwice (s : String)
  | DuplicateRule (lhs : String) (rhs : List String)
  | RuleProducesBogusToken (rid : Nat)
  | UnreachableSymbols (ss : Finset String)
  | IllFoundedSymbols (ss : Finset String)
  | RenamingLoop (ss : Finset String)
  | EpsilonLoop (ss : Finset String)
  | AssertionError
  | KeyError
  | IndexError
deriving DecidableEq

/-- `Except` values are compared in concrete test theorems below. -/
instance {α β : Type} [DecidableEq α] [DecidableEq β] : DecidableEq (Except α β) := by
  intro x y
  cases x <;> cases y
  case error.error a b =>
    exact if h : a = b then .isTrue (by rw [h]) else .isFalse (by simpa using h)
  case error.ok a b => exact .isFalse (by simp)
  case ok.error a b => exact .isFalse (by simp)
  case ok.ok a b =>
    exact if h : a = b then .isTrue (by rw [h]) else .isFalse (by simpa using h)

/-- `class Rule(NamedTuple)` of `context_free.py`.  The `constructor`
field is named `ctor` here; the source does not interpret constructors, so
an opaque `Option String` stands for an arbitrary hashable-or-`None`. -/
structure Rule where
  lhs : String
  rhs : List String
  prec_sym : Option String
  ctor : Option String
  places : Places
  origin : Nat
deriving DecidableEq, Inhabited

/-- `Rule.is_rename` from the source: `constructor is None and
len(self.rhs) == 1 and self.places == 0`. -/
def Rule.is_rename (r : Rule) : Bool :=
  r.ctor = none && r.rhs.length = 1 && r.places = Places.pos 0

/-- The mutable state of a `ContextFreeGrammar` instance. -/
structure CFG where
  symbols : Finset String
  start : List String
  rules : List Rule
  token_precedence : List (String × Nat)
  level_assoc : List Assoc
  symbol_rule_ids : List (String × List Nat)
deriving DecidableEq

/-- The freshly-constructed grammar (`ContextFreeGrammar.__init__`). -/
def CFG0 : CFG := ⟨∅, [], [], [], [], []⟩

/-- Association-list lookup, embedding Python dict `d[k]` / `k in d`. -/
def alookup {β : Type} : List (String × β) → String → Option β
  | [], _ => none
  | (k, v) :: rest, s => if s = k then some v else alookup rest s

/-- Association-list update, embedding Python dict `d[k] = v`. -/
def aset {β : Type} : List (String × β) → String → β → List (String × β)
  | [], s, v => [(s, v)]
  | (k, w) :: rest, s, v =>
      if s = k then (k, v) :: rest else (k, w) :: aset rest s v

/-- The set of keys of `symbol_rule_ids`. -/
def sriKeys (g : CFG) : Finset String := (g.symbol_rule_ids.map Prod.fst).toFinset

/-- The set of symbols appearing as some rule's left-hand side. -/
def lhsSet (g : CFG) : Finset String := (g.rules.map Rule.lhs).toFinset

/-- `ContextFreeGrammar.apparent_terminals`:
`self.symbols - self.symbol_rule_ids.keys()`. -/
def apparent_terminals (g : CFG) : Finset String := g.symbols \ sriKeys g

/-- The two `assert` statements guarding `places`/`constructor` in
`ContextFreeGrammar.rule`: an `int` `places` requires `constructor is None`
and `0 <= places < len(rhs)`; otherwise every index must be `< len(rhs)`. -/
def placesCheck (c : Option String) (pl : Places) (rhsLen : Nat) : Bool :=
  match pl with
  | .pos n => c = none && decide (0 ≤ n ∧ n < (rhsLen : Int))
  | .many ps => ps.all (fun p => decide (p < (rhsLen : Int)))

/-- The `symbol_rule_ids` dict right after
`if lhs not in self.symbol_rule_ids: self.symbol_rule_ids[lhs] = []`. -/
def ruleSri0 (g : CFG) (lhs : String) : List (String × List Nat) :=
  if (alookup g.symbol_rule_ids lhs).isSome then g.symbol_rule_ids
  else aset g.symbol_rule_ids lhs []

/-- The state after the unconditional mutations of
`ContextFreeGrammar.rule` (symbol registrations, empty rule-id entry). -/
def ruleG1 (g : CFG) (lhs : String) (rhs : List String) : CFG :=
  { g with symbols := insert lhs g.symbols ∪ rhs.toFinset,
           symbol_rule_ids := ruleSri0 g lhs }

/-- `sri = self.symbol_rule_ids[lhs]` at the duplicate check. -/
def ruleIds (g : CFG) (lhs : String) : List Nat :=
  (alookup (ruleSri0 g lhs) lhs).getD []

/-- `ContextFreeGrammar.rule`.  Mirrors the statement order of the source:
the `NonTerminalsCannotHavePrecedence` guard runs before any mutation; the
symbol registrations and the (possibly empty) `symbol_rule_ids` entry stick
even when the subsequent bounds assertion or duplicate check fails.
`foundation.allocate` (not in the provided sources) appends to a list and
returns the new index, per its use at the call site. -/
def ruleOp (g : CFG) (lhs : String) (rhs : List String) (ps : Option String)
    (c : Option String) (pl : Places) (origin : Nat) : CFG × Option Err :=
  if (alookup g.token_precedence lhs).isSome then
    (g, some (.NonTerminalsCannotHavePrecedence lhs))
  else if ¬ placesCheck c pl rhs.length then
    (ruleG1 g lhs rhs, some .AssertionError)
  else if (ruleIds g lhs).any (fun i => (g.rules.getD i default).rhs = rhs) then
    (ruleG1 g lhs rhs, some (.DuplicateRule lhs rhs))
  else
    (⟨(ruleG1 g lhs rhs).symbols, g.start,
      g.rules ++ [⟨lhs, rhs, ps, c, pl, origin⟩],
      g.token_precedence, g.level_assoc,
      aset (ruleSri0 g lhs) lhs (ruleIds g lhs ++ [g.rules.length])⟩, none)

/-- The `for symbol in symbols` loop of `ContextFreeGrammar.assoc`;
mutations made before a fault is raised persist. -/
def assocLoop (g : CFG) (level : Nat) : List String → CFG × Option Err
  | [] => (g, none)
  | s :: rest =>
      if (alookup g.symbol_rule_ids s).isSome then
        (g, some (.NonTerminalsCannotHavePrecedence s))
      else if (alookup g.token_precedence s).isSome then
        (g, some (.PrecedenceDeclaredTwice s))
      else
        assocLoop
          { g with token_precedence := g.token_precedence ++ [(s, level)] }
          level rest

/-- `ContextFreeGrammar.assoc`.  The direction is already one of the four
markers by typing; `assert symbols` rejects an empty symbol list.  The new
level is allocated before the per-symbol checks run. -/
def assocOp (g : CFG) (d : Assoc) (syms : List String) : CFG × Option Err :=
  if syms = [] then (g, some .AssertionError)
  else
    let level := g.level_assoc.length
    assocLoop { g with level_assoc := g.level_assoc ++ [d] } level syms

/-- Python truthiness of an optional string (`None` and `''` are falsy),
as used by `rule.prec_sym or ...` and `if prec_sym:`. -/
def truthy : Option String → Bool
  | none => false
  | some s => !s.isEmpty

/-- `ContextFreeGrammar.infer_prec_sym`: the first right-hand-side symbol
with an assigned precedence, else `None`. -/
def infer_prec_sym (g : CFG) : List String → Option String
  | [] => none
  | s :: rest =>
      if (alookup g.token_precedence s).isSome then some s
      else infer_prec_sym g rest

/-- `ContextFreeGrammar.determine_rule_precedence`.  A missing rule index
is Python's `IndexError`; an anchor symbol without an assigned level makes
`self.token_precedence[prec_sym]` raise `KeyError`. -/
def determine_rule_precedence (g : CFG) (rid : Nat) : Except Err (Option Nat) :=
  match g.rules.get? rid with
  | none => .error .IndexError
  | some rule =>
      let ps := if truthy rule.prec_sym then rule.prec_sym
                else infer_prec_sym g rule.rhs
      if truthy ps then
        match ps with
        | some s =>
            match alookup g.token_precedence s with
            | some l => .ok (some l)
            | none => .error .KeyError
        | none => .ok none
      else .ok none

/-- `ContextFreeGrammar.decide_shift_reduce`.  `None` (no opinion) is
`ok none`; the `LEFT`/`RIGHT` markers signal reduce/shift. -/
def decide_shift_reduce (g : CFG) (symbol : String) (rid : Nat) :
    Except Err (Option Assoc) :=
  match alookup g.token_precedence symbol with
  | none => .ok none
  | some sp =>
      match determine_rule_precedence g rid with
      | .error e => .error e
      | .ok none => .ok none
      | .ok (some rp) =>
          if rp < sp then .ok (some .LEFT)
          else if rp = sp then
            match g.level_assoc.get? rp with
            | some a => .ok (some a)
            | none => .error .IndexError
          else .ok (some .RIGHT)

/-! ### `find_first_and_epsilon`

The worklist loop carries the nullable set, the growing per-symbol FIRST
sets, the `hangar` of parked obligations, and the work stack (stored with
its top at the head, see the header comment). -/

structure FState where
  epsilon : Finset String
  first : String → Finset String
  hangar : List (String × List (Nat × Nat))
  work : List (Nat × Nat)

/-- `hangar[k]` viewed as a defaultdict of lists: missing key = `[]`. -/
def hGet (h : List (String × List (Nat × Nat))) (k : String) : List (Nat × Nat) :=
  (alookup h k).getD []

/-- `hangar.pop(k)`: remove the key. -/
def hDel (h : List (String × List (Nat × Nat))) (k : String) :
    List (String × List (Nat × Nat)) :=
  h.filter (fun kv => kv.1 ≠ k)

/-- One iteration of the `while work:` loop of `find_first_and_epsilon`.
With `(r,p)` popped: at `p == len(rhs)` mark `lhs` nullable and release any
obligations hangared on `lhs`; otherwise merge `rhs[p]` into `first[lhs]`
and either advance the obligation (if `rhs[p]` is already nullable) or park
it under `rhs[p]`. -/
def fStep (g : CFG) (st : FState) : FState :=
  match st.work with
  | [] => st
  | (r, p) :: rest =>
      let rule := g.rules.getD r default
      if p = rule.rhs.length then
        let eps := insert rule.lhs st.epsilon
        if hGet st.hangar rule.lhs ≠ [] then
          { epsilon := eps
            first := st.first
            hangar := hDel st.hangar rule.lhs
            work := (hGet st.hangar rule.lhs).reverse ++ rest }
        else
          { st with epsilon := eps, work := rest }
      else
        let symbol := rule.rhs.getD p ""
        let first1 := fun x =>
          if x = rule.lhs then insert symbol (st.first rule.lhs) else st.first x
        if symbol ∈ st.epsilon then
          { st with first := first1, work := (r, p + 1) :: rest }
        else
          { st with
            first := first1
            work := rest
            hangar := aset st.hangar symbol (hGet st.hangar symbol ++ [(r, p + 1)]) }

/-- The worklist loop, fuel-bounded; `fFuel` below always suffices. -/
def fLoop (g : CFG) : Nat → FState → FState
  | 0, st => st
  | n + 1, st => if st.work = [] then st else fLoop g n (fStep g st)

/-- The state entering the loop: `first = {s: {s}}`, one obligation
`(r, 0)` per rule (reversed: the stack pops the last rule first). -/
def fInit (g : CFG) : FState :=
  { epsilon := ∅,
    first := fun s => if s ∈ g.symbols then {s} else ∅,
    hangar := [],
    work := ((List.range g.rules.length).map (fun i => (i, 0))).reverse }

/-- Each obligation `(r,p)` is processed at most once, so the total number
of loop iterations is bounded by the number of rule positions. -/
def fFuel (g : CFG) : Nat := (g.rules.map (fun r => r.rhs.length + 1)).sum

/-! ### Strongly-connected components (modelled from the spec)

`foundation.strongly_connected_components_hashable` is not among the
provided sources.  Modelled from the spec: it computes the strongly
connected components of an adjacency mapping and yields them as an ordered
sequence of components, ordered so that every component comes after the
components it depends on (the spec's FIRST closure resolves mutual
recursion "in one pass", which requires exactly this order).  Components
are ordered here by the cardinality of their reachability set, which is
strictly larger for a predecessor component than for any distinct
component it reaches. -/

/-- One saturation step of forward reachability. -/
def reachStep (adj : String → Finset String) (R : Finset String) : Finset String :=
  R ∪ R.biUnion adj

/-- `bound`-fold saturation of reachability from `s`; for `bound` at least
the number of nodes this is the reflexive-transitive closure. -/
def reachSet (bound : Nat) (adj : String → Finset String) (s : String) :
    Finset String :=
  (reachStep adj)^[bound] {s}

/-- The strongly-connected component of `s`: all nodes mutually reachable
with `s`. -/
def sccOf (bound : Nat) (adj : String → Finset String) (nodes : List String)
    (s : String) : List String :=
  nodes.filter (fun t =>
    decide (t ∈ reachSet bound adj s) && decide (s ∈ reachSet bound adj t))

/-- The components, one per node not already covered. -/
def sccGroups (bound : Nat) (adj : String → Finset String) (nodes : List String) :
    List (List String) :=
  nodes.foldl
    (fun comps s =>
      if comps.any (fun C => decide (s ∈ C)) then comps
      else comps ++ [sccOf bound adj nodes s])
    []

/-- Insertion into a key-sorted list of components. -/
def insertComp (key : List String → Nat) (C : List String) :
    List (List String) → List (List String)
  | [] => [C]
  | D :: rest =>
      if key C ≤ key D then C :: D :: rest else D :: insertComp key C rest

/-- Insertion sort by key (ascending). -/
def sortComps (key : List String → Nat) : List (List String) → List (List String)
  | [] => []
  | C :: rest => insertComp key C (sortComps key rest)

/-- Modelled from the spec: the SCC condensation, components ordered with
dependencies first (ascending reachability-set cardinality). -/
def sccList (bound : Nat) (adj : String → Finset String) (nodes : List String) :
    List (List String) :=
  sortComps (fun C => (reachSet bound adj (C.headD "")).card)
    (sccGroups bound adj nodes)

/-! ### The FIRST-set closure pass over the components -/

/-- How a symbol's FIRST set reads during a component pass: members already
assigned in this component are aliased to the shared working set `f`
(Python aliases them to one mutated set object), everything else still
reads the dictionary. -/
def compView (cur : String → Finset String) (f : Finset String)
    (done : List String) (x : String) : Finset String :=
  if x ∈ done then f else cur x

/-- One member of a component: union in `first[x]` for every
`x ∈ first[m]`, through the aliasing view. -/
def compFoldStep (cur : String → Finset String)
    (acc : Finset String × List String) (m : String) :
    Finset String × List String :=
  (acc.1 ∪ (compView cur acc.1 acc.2 m).biUnion (compView cur acc.1 acc.2),
   m :: acc.2)

/-- The per-component `for symbol in component` loop; returns the shared
set every member ends up aliased to (before the nonterminal strip). -/
def compFold (cur : String → Finset String) (C : List String) : Finset String :=
  (C.foldl (compFoldStep cur) (∅, [])).1

/-- The `for component in strongly_connected_components_hashable(first)`
loop: every member of the component is assigned the shared set, stripped of
the keys of `symbol_rule_ids`. -/
def closurePhase (g : CFG) (first0 : String → Finset String) :
    String → Finset String :=
  let nodes := g.symbols.sort (· ≤ ·)
  let comps := sccList nodes.length first0 nodes
  comps.foldl
    (fun cur C =>
      let f := compFold cur C \ sriKeys g
      fun s => if s ∈ C then f else cur s)
    first0

/-- `ContextFreeGrammar.find_first_and_epsilon`. -/
def find_first_and_epsilon (g : CFG) : (String → Finset String) × Finset String :=
  let st := fLoop g (fFuel g) (fInit g)
  (closurePhase g st.first, st.epsilon)

/-! ### The validators and `validate` -/

/-- The symbols whose precedence level is tagged `BOGUS` (the level index
is always in range in states built through `assoc`; out-of-range indices
are read as non-bogus here). -/
def bogons (g : CFG) : Finset String :=
  ((g.token_precedence.filter
      (fun kv => decide (g.level_assoc.getD kv.2 .LEFT = .BOGUS))).map
    Prod.fst).toFinset

/-- `ContextFreeGrammar.assert_no_bogons`: the first rule whose rhs holds a
bogus token is the fault. -/
def assert_no_bogons (g : CFG) : Except Err Unit :=
  match (List.range g.rules.length).find?
      (fun i => (g.rules.getD i default).rhs.any (fun s => decide (s ∈ bogons g))) with
  | some i => .error (.RuleProducesBogusToken i)
  | none => .ok ()

/-- One pass of `assert_well_founded`'s inner `for rule in black:` loop;
the well-founded set grows as the pass walks the list, and blocked rules
are collected in order. -/
def wfPass (wf : Finset String) : List Rule → Finset String × List Rule
  | [] => (wf, [])
  | r :: rest =>
      if r.lhs ∈ wf then wfPass wf rest
      else if r.rhs.all (fun s => decide (s ∈ wf)) then wfPass (insert r.lhs wf) rest
      else
        let out := wfPass wf rest
        (out.1, r :: out.2)

/-- The `while black:` loop of `assert_well_founded`: keep passing while
progress is made; a pass without progress reports the stuck left-hand
sides.  Fuel `len(rules) + 1` always suffices since the list strictly
shrinks. -/
def wfLoop : Nat → Finset String → List Rule → Except Err Unit
  | _, _, [] => .ok ()
  | 0, _, black => .error (.IllFoundedSymbols (black.map Rule.lhs).toFinset)
  | fuel + 1, wf, black =>
      let out := wfPass wf black
      if out.2.length < black.length then wfLoop fuel out.1 out.2
      else .error (.IllFoundedSymbols (out.2.map Rule.lhs).toFinset)

/-- `ContextFreeGrammar.assert_well_founded`. -/
def assert_well_founded (g : CFG) : Except Err Unit :=
  wfLoop (g.rules.length + 1) (apparent_terminals g) g.rules

/-- The `produces` relation of `assert_no_orphans`: the symbols each
left-hand side can directly produce. -/
def produces (g : CFG) (s : String) : Finset String :=
  (g.rules.filter (fun r => decide (r.lhs = s))).foldl
    (fun acc r => acc ∪ r.rhs.toFinset) ∅

/-- Modelled from the spec: `foundation.transitive_closure` computes the
set of symbols reachable from the start set through a successor mapping
(the roots included), here by saturation. -/
def transitive_closure (bound : Nat) (roots : List String)
    (adj : String → Finset String) : Finset String :=
  (reachStep adj)^[bound] roots.toFinset

/-- `ContextFreeGrammar.assert_no_orphans`. -/
def assert_no_orphans (g : CFG) : Except Err Unit :=
  let closure := transitive_closure (g.symbols.card + 1) g.start (produces g)
  let unreachable := g.symbols \ closure
  if unreachable = ∅ then .ok () else .error (.UnreachableSymbols unreachable)

/-- The edges of the unit-rule graph of `assert_no_rename_loops`: every
rule whose rhs is a single symbol other than its lhs (the attribute
descriptor is not consulted). -/
def renamePairs (g : CFG) : List (String × String) :=
  g.rules.filterMap (fun r =>
    match r.rhs with
    | [y] => if y = r.lhs then none else some (r.lhs, y)
    | _ => none)

/-- The lhs of every one-symbol self-rule (`lhs == rhs[0]`). -/
def selfRenames (g : CFG) : Finset String :=
  (g.rules.filterMap (fun r =>
    match r.rhs with
    | [y] => if y = r.lhs then some r.lhs else none
    | _ => none)).toFinset

/-- Adjacency of the `renames` graph. -/
def renameAdj (g : CFG) (s : String) : Finset String :=
  (((renamePairs g).filter (fun kv => decide (kv.1 = s))).map Prod.snd).toFinset

/-- The nodes of the `renames` graph (keys and values). -/
def renameNodes (g : CFG) : List String :=
  ((renamePairs g).map Prod.fst ++ (renamePairs g).map Prod.snd).dedup

/-- `ContextFreeGrammar.assert_no_rename_loops`. -/
def assert_no_rename_loops (g : CFG) : Except Err Unit :=
  let nodes := renameNodes g
  let comps := sccList nodes.length (renameAdj g) nodes
  let broken := comps.foldl
    (fun b C => if 1 < C.length then b ∪ C.toFinset else b) (selfRenames g)
  if broken = ∅ then .ok () else .error (.RenamingLoop broken)

/-- The maximal nullable prefix of a rule's rhs
(`itertools.takewhile(epsilon.__contains__, rhs)`). -/
def epsilonPre (eps : Finset String) (r : Rule) : List String :=
  r.rhs.takeWhile (fun s => decide (s ∈ eps))

/-- The prefix after discarding the one permitted leading self-reference. -/
def epsilonPreTrim (eps : Finset String) (r : Rule) : List String :=
  match epsilonPre eps r with
  | [] => []
  | x :: rest => if x = r.lhs then rest else x :: rest

/-- Left-hand sides that still appear in their own trimmed prefix.  Rules
whose untrimmed prefix is empty are skipped (`continue`). -/
def epsBroken (g : CFG) (eps : Finset String) : Finset String :=
  (g.rules.filterMap (fun r =>
    match epsilonPre eps r with
    | [] => none
    | _ :: _ => if r.lhs ∈ epsilonPreTrim eps r then some r.lhs else none)).toFinset

/-- Adjacency of the `reaches` graph: each lhs reaches its trimmed
nullable prefix symbols. -/
def epsAdj (g : CFG) (eps : Finset String) (s : String) : Finset String :=
  g.rules.foldl
    (fun acc r =>
      match epsilonPre eps r with
      | [] => acc
      | _ :: _ => if r.lhs = s then acc ∪ (epsilonPreTrim eps r).toFinset else acc)
    ∅

/-- The nodes of the `reaches` graph (keys and values). -/
def epsNodes (g : CFG) (eps : Finset String) : List String :=
  (g.rules.foldr
    (fun r acc =>
      match epsilonPre eps r with
      | [] => acc
      | _ :: _ => r.lhs :: epsilonPreTrim eps r ++ acc)
    []).dedup

/-- `ContextFreeGrammar.assert_no_epsilon_loops`. -/
def assert_no_epsilon_loops (g : CFG) : Except Err Unit :=
  let eps := (find_first_and_epsilon g).2
  let nodes := epsNodes g eps
  let comps := sccList nodes.length (epsAdj g eps) nodes
  let broken := comps.foldl
    (fun b C => if 1 < C.length then b ∪ C.toFinset else b) (epsBroken g eps)
  if broken = ∅ then .ok () else .error (.EpsilonLoop broken)

/-- `ContextFreeGrammar.validate`: the five checks in their fixed order,
stopping at the first fault. -/
def validate (g : CFG) : Except Err Unit := do
  assert_no_bogons g
  assert_well_founded g
  assert_no_orphans g
  assert_no_rename_loops g
  assert_no_epsilon_loops g

/-! ### States reachable through the construction API -/

/-- Grammar states reachable from a fresh instance through successful
`rule` / `assoc` calls and start-symbol assignment. -/
inductive Built : CFG → Prop
  | init : Built CFG0
  | rule {g g' : CFG} {lhs : String} {rhs : List String} {ps c : Option String}
      {pl : Places} {o : Nat} :
      Built g → ruleOp g lhs rhs ps c pl o = (g', none) → Built g'
  | assoc {g g' : CFG} {d : Assoc} {syms : List String} :
      Built g → assocOp g d syms = (g', none) → Built g'
  | setStart {g : CFG} (ss : List String) : Built g → Built { g with start := ss }

/-- Every symbol mentioned by a list of rules (each lhs and rhs entry). -/
def mentionedSyms : List Rule → Finset String
  | [] => ∅
  | r :: rest => insert r.lhs (r.rhs.toFinset ∪ mentionedSyms rest)

/-- The data invariants every reachable grammar state satisfies. -/
structure StateInv (g : CFG) : Prop where
  tp_disjoint : ∀ k, (alookup g.symbol_rule_ids k).isSome →
    alookup g.token_precedence k = none
  rules_indexed : ∀ (j : Nat) (r : Rule), g.rules[j]? = some r →
    ∃ ids, alookup g.symbol_rule_ids r.lhs = some ids ∧ j ∈ ids
  ids_sound : ∀ k ids, alookup g.symbol_rule_ids k = some ids →
    ids ≠ [] ∧ ∀ i ∈ ids, ∃ r : Rule, g.rules[i]? = some r ∧ r.lhs = k
  keys_in_symbols : ∀ k, (alookup g.symbol_rule_ids k).isSome → k ∈ g.symbols
  symbols_mentioned : g.symbols = mentionedSyms g.rules

/-! ### The specification side: derivations, nullability, FIRST

These define what the spec's words mean: a symbol "can derive the empty
string", and a terminal "can begin some derivation from X".  They are the
measuring stick the algorithm in `find_first_and_epsilon` is checked
against. -/

/-- One rewriting step: replace one occurrence of a rule's lhs by its
rhs inside a sentential form. -/
inductive Step (g : CFG) : List String → List String → Prop
  | mk (r : Rule) (α β : List String) : r ∈ g.rules →
      Step g (α ++ r.lhs :: β) (α ++ r.rhs ++ β)

/-- The derivation relation: reflexive-transitive closure of `Step`. -/
def Derives (g : CFG) : List String → List String → Prop :=
  Relation.ReflTransGen (Step g)

/-- Inductive nullability: a symbol with a rule whose rhs symbols are all
nullable. -/
inductive Nullable (g : CFG) : String → Prop
  | mk (r : Rule) : r ∈ g.rules → (∀ s ∈ r.rhs, Nullable g s) → Nullable g r.lhs

/-- The FIRST dependency edge: `y` occurs in some rule for `x` behind a
nullable prefix. -/
def edgeSpec (g : CFG) (x y : String) : Prop :=
  ∃ r ∈ g.rules, r.lhs = x ∧ ∃ p : Nat, r.rhs[p]? = some y ∧
    ∀ i, i < p → ∀ s, r.rhs[i]? = some s → Nullable g s

/-- `t` can begin a derivation from `x`: reachability along `edgeSpec`. -/
def FirstSpec (g : CFG) (x t : String) : Prop :=
  Relation.ReflTransGen (edgeSpec g) x t

/-- The well-formedness every grammar built from successful declarations
enjoys (see `StateInv`): rules mention only registered symbols, and the
`symbol_rule_ids` keys are exactly the rule left-hand sides. -/
def GoodCFG (g : CFG) : Prop :=
  (∀ r ∈ g.rules, r.lhs ∈ g.symbols ∧ ∀ s ∈ r.rhs, s ∈ g.symbols) ∧
  sriKeys g = lhsSet g

/-! ### Bookkeeping for the worklist-loop invariant -/

/-- The rhs length of rule number `r`. -/
def rlen (g : CFG) (r : Nat) : Nat := (g.rules.getD r default).rhs.length

/-- The lhs of rule number `r`. -/
def rlhs (g : CFG) (r : Nat) : String := (g.rules.getD r default).lhs

/-- The symbol at position `p` of rule `r`'s rhs. -/
def rsym (g : CFG) (r p : Nat) : Option String := (g.rules.getD r default).rhs[p]?

/-- The first `q` rhs symbols of rule `r` all belong to `S`. -/
def prefixIn (g : CFG) (S : Finset String) (r q : Nat) : Prop :=
  ∀ i, i < q → ∀ s, rsym g r i = some s → s ∈ S

/-- The first `q` rhs symbols of rule `r` have been merged into the lhs's
working FIRST set. -/
def edgesTo (g : CFG) (st : FState) (r q : Nat) : Prop :=
  ∀ p, p < q → ∀ s, rsym g r p = some s → s ∈ st.first (rlhs g r)

/-- All parked obligations, in hangar order. -/
def hangItems (st : FState) : List (Nat × Nat) := (st.hangar.map Prod.snd).flatten

/-- All outstanding obligations. -/
def allItems (st : FState) : List (Nat × Nat) := st.work ++ hangItems st

/-- How many obligations of rule `r` a list holds. -/
def countR (r : Nat) (l : List (Nat × Nat)) : Nat :=
  (l.filter (fun it => decide (it.1 = r))).length

/-- Summing a list-valued measure over the hangar entries. -/
def hangSum (F : List (Nat × Nat) → Nat)
    (h : List (String × List (Nat × Nat))) : Nat :=
  (h.map (fun kv => F kv.2)).sum

/-- How many obligations of rule `r` are outstanding. -/
def itemCount (st : FState) (r : Nat) : Nat :=
  countR r st.work + hangSum (countR r) st.hangar

/-- Each rule owns exactly one outstanding obligation until it finishes:
either an active one on the work stack with a nullable-so-far prefix, or a
parked one keyed by its non-nullable blocker; a finished rule has marked
its lhs nullable, contributed all its edges, and owns no obligation. -/
def TokenState (g : CFG) (st : FState) (r : Nat) : Prop :=
  (∃ q, q ≤ rlen g r ∧ itemCount st r = 1 ∧ edgesTo g st r q ∧
     (((r, q) ∈ st.work ∧ prefixIn g st.epsilon r q)
      ∨ (∃ y, 1 ≤ q ∧ rsym g r (q - 1) = some y ∧ y ∉ st.epsilon ∧
          (r, q) ∈ hGet st.hangar y ∧ prefixIn g st.epsilon r (q - 1))))
  ∨ (rlhs g r ∈ st.epsilon ∧ edgesTo g st r (rlen g r) ∧ itemCount st r = 0)

/-- The full worklist-loop invariant. -/
structure WInv (g : CFG) (st : FState) : Prop where
  eps_sound : ∀ s ∈ st.epsilon, Nullable g s
  first_base : ∀ x, x ∈ g.symbols → x ∈ st.first x
  first_none : ∀ x, x ∉ g.symbols → st.first x = ∅
  first_sound : ∀ x y, y ∈ st.first x → (y = x ∧ x ∈ g.symbols) ∨ edgeSpec g x y
  items_valid : ∀ it ∈ allItems st, it.1 < g.rules.length ∧ it.2 ≤ rlen g it.1
  token : ∀ r, r < g.rules.length → TokenState g st r
  hangar_keys : (st.hangar.map Prod.fst).Nodup
  hangar_vals : ∀ kv ∈ st.hangar, kv.2 ≠ []

/-- The weight of an obligation: how many pops it can still cause. -/
def wt (g : CFG) (it : Nat × Nat) : Nat := rlen g it.1 + 1 - it.2

/-- The termination measure of the worklist loop. -/
def measureW (g : CFG) (st : FState) : Nat :=
  (st.work.map (wt g)).sum + hangSum (fun l => (l.map (wt g)).sum) st.hangar

/-- The step relation read off a successor mapping. -/
def adjRel (adj : String → Finset String) (x y : String) : Prop := y ∈ adj x

/-! ### Concrete grammars used by the claims -/

/-- The grammar of claim C1: start symbol `S`, rule `S → a b`, precedence
levels `LEFT {+}` declared first (level 0) and `LEFT {*}` second (level 1),
and rule `Expr → Expr + Expr` (rule id 1) anchored on `+`. -/
def gC1 : CFG :=
  let a1 := (assocOp CFG0 .LEFT ["+"]).1
  let a2 := (assocOp a1 .LEFT ["*"]).1
  let r1 := (ruleOp a2 "S" ["a", "b"] none none (.many []) 0).1
  let r2 := (ruleOp r1 "Expr" ["Expr", "+", "Expr"] (some "+") none (.many []) 1).1
  { r2 with start := ["S"] }

/-- The concrete grammar for the C10 witness: `+` has level 0; the single
rule `S → a` is anchored on the never-declared symbol `q`. -/
def gC10 : CFG :=
  (ruleOp (assocOp CFG0 .LEFT ["+"]).1 "S" ["a"] (some "q") none (.pos 0) 0).1

/-- The grammar of claim C4: `Start → A`, `A → ε`, `A → A`,
start symbol `Start`. -/
def gC4 : CFG :=
  let r0 := (ruleOp CFG0 "Start" ["A"] none none (.pos 0) 0).1
  let r1 := (ruleOp r0 "A" [] none none (.many []) 1).1
  let r2 := (ruleOp r1 "A" ["A"] none none (.pos 0) 2).1
  { r2 with start := ["Start"] }

/-- The grammar of claim C5's counterexample: the single rule `A → A`
declared with a constructor-style attribute (`constructor = "c"`,
`places = [0]`), hence not a rename rule by `Rule.is_rename`. -/
def gC5 : CFG :=
  (ruleOp CFG0 "A" ["A"] none (some "c") (.many [0]) 0).1

/-- The grammar of claim C6: `S → x`, `A → B y`, `B → A x`,
start symbol `S`. -/
def gC6 : CFG :=
  let r0 := (ruleOp CFG0 "S" ["x"] none none (.pos 0) 0).1
  let r1 := (ruleOp r0 "A" ["B", "y"] none none (.many []) 1).1
  let r2 := (ruleOp r1 "B" ["A", "x"] none none (.many []) 2).1
  { r2 with start := ["S"] }

/-- The grammar of claim C7's scenario: the single rule `S → a` with the
plain-passthrough attribute. -/
def gC7 : CFG := (ruleOp CFG0 "S" ["a"] none none (.pos 0) 0).1

/-- The grammar witnessing claim C3: `S → A b`, `A → ε`, `A → a`. -/
def gC3 : CFG :=
  let r0 := (ruleOp CFG0 "S" ["A", "b"] none none (.many []) 0).1
  let r1 := (ruleOp r0 "A" [] none none (.many []) 1).1
  let r2 := (ruleOp r1 "A" ["a"] none none (.pos 0) 2).1
  { r2 with start := ["S"] }

/-- Every constituent declaration of `gC1` succeeds, and the resulting
levels are `+ ↦ 0`, `* ↦ 1` as the claim supposes. -/
lemma gC1_wellBuilt :
    (assocOp CFG0 .LEFT ["+"]).2 = none ∧
    (assocOp (assocOp CFG0 .LEFT ["+"]).1 .LEFT ["*"]).2 = none ∧
    alookup gC1.token_precedence "+" = some 0 ∧
    alookup gC1.token_precedence "*" = some 1 ∧
    (gC1.rules.getD 1 default).prec_sym = some "+" := by decide

/-- C1, counterexample: on the claimed grammar, `decide_shift_reduce('*',
rule_for_+)` does not return the shift signal `RIGHT`. -/
theorem C1_counterexample :
    decide_shift_reduce gC1 "*" 1 ≠ Except.ok (some Assoc.RIGHT) := by decide

/-- C1, amended: on that grammar `decide_shift_reduce('*', rule_for_+)`
returns the reduce signal `LEFT`: the rule's level 0 is below the
lookahead's level 1 and `rp < sp` yields `LEFT`, i.e. in this code an
earlier-declared precedence level binds tighter than a later one (the
source comment explicitly contrasts this with Bison's and Lemon's
later-binds-tighter convention). -/
theorem C1_theorem :
    decide_shift_reduce gC1 "*" 1 = Except.ok (some Assoc.LEFT) := by decide

/-- C2: `decide_shift_reduce` has no opinion (`ok none`) exactly when the
lookahead symbol has no declared level or the rule's precedence determines
to `None`; otherwise with `rp` the rule's level and `sp` the lookahead's,
`rp < sp` signals reduce (`LEFT`), `rp > sp` signals shift (`RIGHT`), and
`rp = sp` returns that level's declared associativity tag (the level index
is in range for any grammar built through `assoc`, which allocates every
level it assigns). -/
theorem C2_theorem (g : CFG) (sym : String) (rid : Nat) :
    (decide_shift_reduce g sym rid = Except.ok none ↔
      alookup g.token_precedence sym = none ∨
        determine_rule_precedence g rid = Except.ok none) ∧
    (∀ sp rp, alookup g.token_precedence sym = some sp →
      determine_rule_precedence g rid = Except.ok (some rp) →
      (rp < sp → decide_shift_reduce g sym rid = Except.ok (some Assoc.LEFT)) ∧
      (sp < rp → decide_shift_reduce g sym rid = Except.ok (some Assoc.RIGHT)) ∧
      (rp = sp → ∀ h : rp < g.level_assoc.length,
        decide_shift_reduce g sym rid =
          Except.ok (some (g.level_assoc.get ⟨rp, h⟩)))) := by
  constructor
  · cases h1 : alookup g.token_precedence sym with
    | none => simp [decide_shift_reduce, h1]
    | some sp =>
      cases h2 : determine_rule_precedence g rid with
      | error e => simp [decide_shift_reduce, h1, h2]
      | ok o =>
        cases o with
        | none => simp [decide_shift_reduce, h1, h2]
        | some rp =>
          simp only [decide_shift_reduce, h1, h2]
          constructor
          · intro hcontra
            by_cases hlt : rp < sp
            · simp [hlt] at hcontra
            · by_cases heq : rp = sp
              · simp only [if_neg hlt, if_pos heq] at hcontra
                cases h3 : g.level_assoc[rp]? <;> simp [h3] at hcontra
              · simp [hlt, heq] at hcontra
          · intro hcontra
            rcases hcontra with h | h <;> simp at h
  · intro sp rp h1 h2
    refine ⟨fun hlt => ?_, fun hgt => ?_, fun heq h => ?_⟩
    · simp [decide_shift_reduce, h1, h2, hlt]
    · have hne : ¬ rp < sp := by omega
      have hne2 : rp ≠ sp := by omega
      simp [decide_shift_reduce, h1, h2, hne, hne2]
    · have hne : ¬ rp < sp := by omega
      simp only [decide_shift_reduce, h1, h2, if_neg hne, if_pos heq]
      rw [List.get?_eq_get h]

/-- C2, witness: on `gC1` with lookahead `*` and rule 1 the levels are
`sp = 1`, `rp = 0` and the answer is the reduce signal. -/
theorem C2_witness :
    decide_shift_reduce gC1 "*" 1 = Except.ok (some Assoc.LEFT) :=
  (((C2_theorem gC1 "*" 1).2 1 0 (by decide) (by decide)).1 (by decide))

/-- C10: a rule declared with an explicit, never-leveled precedence anchor
makes `determine_rule_precedence` raise `KeyError` rather than answer
`None`; consequently `decide_shift_reduce` raises `KeyError` whenever the
lookahead itself has a declared level; and `ContextFreeGrammar.rule` never
validates the anchor (its accept/fault verdict is independent of it). -/
theorem C10_theorem (g : CFG) (rid : Nat) (r : Rule) (s : String)
    (hr : g.rules[rid]? = some r) (hps : r.prec_sym = some s)
    (hne : s.isEmpty = false)
    (hmiss : alookup g.token_precedence s = none) :
    determine_rule_precedence g rid = Except.error Err.KeyError ∧
    (∀ sym sp, alookup g.token_precedence sym = some sp →
      decide_shift_reduce g sym rid = Except.error Err.KeyError) ∧
    (∀ (g' : CFG) (lhs : String) (rhs : List String) (ps1 ps2 : Option String)
        (c : Option String) (pl : Places) (o : Nat),
      (ruleOp g' lhs rhs ps1 c pl o).2 = (ruleOp g' lhs rhs ps2 c pl o).2) := by
  have hdet : determine_rule_precedence g rid = Except.error Err.KeyError := by
    simp [determine_rule_precedence, hr, hps, truthy, hne, hmiss]
  refine ⟨hdet, fun sym sp hsp => ?_, fun g' lhs rhs ps1 ps2 c pl o => ?_⟩
  · simp [decide_shift_reduce, hsp, hdet]
  · simp [ruleOp, apply_ite (Prod.snd : CFG × Option Err → Option Err)]

/-! ### Claims C4, C5, C6: the whole-grammar validators -/

/-- C4, counterexample: on the grammar `Start → A`, `A → ε`, `A → A`,
`validate()` does not raise `EpsilonLoop` citing `{A}`. -/
theorem C4_counterexample :
    validate gC4 ≠ Except.error (Err.EpsilonLoop {"A"}) := by decide

/-- C4, amended: on that grammar `validate()` raises `RenamingLoop` citing
`{A}` instead: the rename-loop check runs before the epsilon-loop check and
`A → A` is a one-symbol self-rule; moreover the epsilon-loop check alone
would accept this grammar, because the one permitted self-prefix discard is
applied per rule and it fully excuses the rule `A → A`. -/
theorem C4_theorem :
    validate gC4 = Except.error (Err.RenamingLoop {"A"}) ∧
    assert_no_epsilon_loops gC4 = Except.ok () := by decide

/-- Accumulating broken components only ever grows the fault set. -/
lemma foldl_broken_subset (comps : List (List String)) (b : Finset String) :
    b ⊆ comps.foldl (fun b C => if 1 < C.length then b ∪ C.toFinset else b) b := by
  induction comps generalizing b with
  | nil => exact fun x hx => hx
  | cons C rest ih =>
      intro x hx
      rw [List.foldl_cons]
      refine ih (if 1 < C.length then b ∪ C.toFinset else b) ?_
      by_cases h : 1 < C.length <;> simp [h, hx]

/-- C5, counterexample: the rule `A → A` of `gC5` carries a
constructor-style attribute, so it is not a rename rule, yet
`assert_no_rename_loops` reports `RenamingLoop({A})` for it. -/
theorem C5_counterexample :
    Rule.is_rename (gC5.rules.getD 0 default) = false ∧
    assert_no_rename_loops gC5 = Except.error (Err.RenamingLoop {"A"}) := by decide

/-- C5, amended: `assert_no_rename_loops` builds its graph from every rule
whose rhs has exactly one element, regardless of the attribute descriptor;
in particular any one-symbol self-rule `lhs → lhs` forces a `RenamingLoop`
fault naming its lhs. -/
theorem C5_theorem (g : CFG) (r : Rule) (hr : r ∈ g.rules)
    (hself : r.rhs = [r.lhs]) :
    ∃ S : Finset String,
      assert_no_rename_loops g = Except.error (Err.RenamingLoop S) ∧ r.lhs ∈ S := by
  have hmem : r.lhs ∈ selfRenames g := by
    rw [selfRenames, List.mem_toFinset, List.mem_filterMap]
    exact ⟨r, hr, by rw [hself]; simp⟩
  have hmem2 := foldl_broken_subset
    (sccList (renameNodes g).length (renameAdj g) (renameNodes g))
    (selfRenames g) hmem
  have hne : (sccList (renameNodes g).length (renameAdj g)
      (renameNodes g)).foldl
        (fun b C => if 1 < C.length then b ∪ C.toFinset else b)
        (selfRenames g) ≠ ∅ :=
    fun hempty => absurd (hempty ▸ hmem2) (Finset.not_mem_empty _)
  refine ⟨_, ?_, hmem2⟩
  simp only [assert_no_rename_loops]
  rw [if_neg hne]

/-- C5, witness: the amended statement applied to `gC5`. -/
theorem C5_witness :
    ∃ S : Finset String,
      assert_no_rename_loops gC5 = Except.error (Err.RenamingLoop S) ∧ "A" ∈ S :=
  C5_theorem gC5 (gC5.rules.getD 0 default) (by decide) (by decide)

/-- C6: on the grammar `S → x`, `A → B y`, `B → A x` with start `S`,
`validate()` raises `IllFoundedSymbols` citing exactly `{A, B}`; and in
general `validate` runs no-bogus → well-foundedness → reachability →
rename-loops → epsilon-loops, stopping at the first failure, so an
ill-foundedness fault is reported before reachability is ever checked. -/
theorem C6_theorem :
    validate gC6 = Except.error (Err.IllFoundedSymbols {"A", "B"}) ∧
    (∀ g e, assert_no_bogons g = Except.error e →
      validate g = Except.error e) ∧
    (∀ g e, assert_no_bogons g = Except.ok () →
      assert_well_founded g = Except.error e →
      validate g = Except.error e) ∧
    (∀ g e, assert_no_bogons g = Except.ok () →
      assert_well_founded g = Except.ok () →
      assert_no_orphans g = Except.error e →
      validate g = Except.error e) ∧
    (∀ g e, assert_no_bogons g = Except.ok () →
      assert_well_founded g = Except.ok () →
      assert_no_orphans g = Except.ok () →
      assert_no_rename_loops g = Except.error e →
      validate g = Except.error e) ∧
    (∀ g, assert_no_bogons g = Except.ok () →
      assert_well_founded g = Except.ok () →
      assert_no_orphans g = Except.ok () →
      assert_no_rename_loops g = Except.ok () →
      validate g = assert_no_epsilon_loops g) := by
  refine ⟨by decide, ?_, ?_, ?_, ?_, ?_⟩
  · intro g e h1
    simp [validate, h1, Bind.bind, Except.bind]
  · intro g e h1 h2
    simp [validate, h1, h2, Bind.bind, Except.bind]
  · intro g e h1 h2 h3
    simp [validate, h1, h2, h3, Bind.bind, Except.bind]
  · intro g e h1 h2 h3 h4
    simp [validate, h1, h2, h3, h4, Bind.bind, Except.bind]
  · intro g h1 h2 h3 h4
    simp [validate, h1, h2, h3, h4, Bind.bind, Except.bind]

/-- C6, witness: the order statement applied to `gC6`, whose
well-foundedness check fails while the no-bogus check passes. -/
theorem C6_witness :
    validate gC6 = Except.error (Err.IllFoundedSymbols {"A", "B"}) :=
  C6_theorem.2.2.1 gC6 (Err.IllFoundedSymbols {"A", "B"}) (by decide) (by decide)

/-- C10, witness: on `gC10`, rule 0's precedence lookup raises `KeyError`,
and so does `decide_shift_reduce` with the leveled lookahead `+`. -/
theorem C10_witness :
    determine_rule_precedence gC10 0 = Except.error Err.KeyError ∧
    decide_shift_reduce gC10 "+" 0 = Except.error Err.KeyError := by
  have h := C10_theorem gC10 0 (gC10.rules.getD 0 default) "q"
    (by decide) (by decide) (by decide) (by decide)
  exact ⟨h.1, h.2.1 "+" 0 (by decide)⟩

/-! ### Association lists and the reachable-state invariant -/

lemma alookup_eq_none_iff {β : Type} (l : List (String × β)) (k : String) :
    alookup l k = none ↔ k ∉ l.map Prod.fst := by
  induction l with
  | nil => simp [alookup]
  | cons kv rest ih =>
      obtain ⟨k0, v0⟩ := kv
      by_cases h : k = k0 <;> simp [alookup, h, ih]

lemma alookup_isSome_iff {β : Type} (l : List (String × β)) (k : String) :
    (alookup l k).isSome = true ↔ k ∈ l.map Prod.fst := by
  rw [← not_iff_not, ← alookup_eq_none_iff]
  cases alookup l k <;> simp

lemma alookup_aset_self {β : Type} (l : List (String × β)) (k : String) (v : β) :
    alookup (aset l k v) k = some v := by
  induction l with
  | nil => simp [aset, alookup]
  | cons kv rest ih =>
      obtain ⟨k0, v0⟩ := kv
      by_cases h : k = k0 <;> simp [aset, alookup, h, ih]

lemma alookup_aset_ne {β : Type} (l : List (String × β)) (k k' : String) (v : β)
    (h : k' ≠ k) : alookup (aset l k v) k' = alookup l k' := by
  induction l with
  | nil => simp [aset, alookup, h]
  | cons kv rest ih =>
      obtain ⟨k0, v0⟩ := kv
      by_cases h0 : k = k0
      · subst h0
        simp [aset, alookup, h]
      · by_cases h1 : k' = k0 <;> simp [aset, alookup, h0, h1, ih]

lemma mem_map_fst_aset {β : Type} (l : List (String × β)) (k : String) (v : β) :
    k ∈ (aset l k v).map Prod.fst := by
  rw [← alookup_isSome_iff, alookup_aset_self]
  rfl

lemma mem_sriKeys_iff (g : CFG) (k : String) :
    k ∈ sriKeys g ↔ (alookup g.symbol_rule_ids k).isSome = true := by
  rw [sriKeys, List.mem_toFinset, alookup_isSome_iff]

lemma mentionedSyms_append (l1 l2 : List Rule) :
    mentionedSyms (l1 ++ l2) = mentionedSyms l1 ∪ mentionedSyms l2 := by
  induction l1 with
  | nil => simp [mentionedSyms]
  | cons r rest ih =>
      show insert r.lhs (r.rhs.toFinset ∪ mentionedSyms (rest ++ l2)) =
        insert r.lhs (r.rhs.toFinset ∪ mentionedSyms rest) ∪ mentionedSyms l2
      rw [ih, Finset.insert_union, Finset.union_assoc]

lemma getElem?_lt {α : Type} (l : List α) (i : Nat) (a : α)
    (h : l[i]? = some a) : i < l.length := by
  by_contra hcon
  rw [List.getElem?_eq_none (by omega)] at h
  cases h

/-- Characterization of a successful `ruleOp` call. -/
lemma ruleOp_ok {g g' : CFG} {lhs : String} {rhs : List String}
    {ps c : Option String} {pl : Places} {o : Nat}
    (h : ruleOp g lhs rhs ps c pl o = (g', none)) :
    alookup g.token_precedence lhs = none ∧
    placesCheck c pl rhs.length = true ∧
    (ruleIds g lhs).any (fun i => (g.rules.getD i default).rhs = rhs) = false ∧
    g' = ⟨insert lhs g.symbols ∪ rhs.toFinset, g.start,
          g.rules ++ [⟨lhs, rhs, ps, c, pl, o⟩], g.token_precedence,
          g.level_assoc,
          aset (ruleSri0 g lhs) lhs (ruleIds g lhs ++ [g.rules.length])⟩ := by
  rw [ruleOp] at h
  split at h
  next h1 => exact absurd (congrArg Prod.snd h) (by simp)
  next h1 =>
    split at h
    next h2 => exact absurd (congrArg Prod.snd h) (by simp)
    next h2 =>
      split at h
      next h3 => exact absurd (congrArg Prod.snd h) (by simp)
      next h3 =>
        refine ⟨Option.not_isSome_iff_eq_none.mp (by simpa using h1),
          not_not.mp (by simpa using h2), by simpa using h3, ?_⟩
        have hg := congrArg Prod.fst h
        simp only [ruleG1] at hg
        exact hg.symm

/-- Characterization of a failed-but-mutated `ruleOp` call: the assertion
and duplicate faults both leave the `ruleG1` state behind. -/
lemma ruleOp_err {g g' : CFG} {lhs : String} {rhs : List String}
    {ps c : Option String} {pl : Places} {o : Nat} {e : Err}
    (h : ruleOp g lhs rhs ps c pl o = (g', some e))
    (he : e = Err.AssertionError ∨ e = Err.DuplicateRule lhs rhs) :
    g' = ruleG1 g lhs rhs := by
  rw [ruleOp] at h
  split at h
  next h1 =>
    have := congrArg Prod.snd h
    simp only at this
    rcases he with he | he <;> rw [he] at this <;> simp at this
  next h1 =>
    split at h
    next h2 => exact (congrArg Prod.fst h).symm
    next h2 =>
      split at h
      next h3 => exact (congrArg Prod.fst h).symm
      next h3 => exact absurd (congrArg Prod.snd h) (by simp)

lemma stateInv_init : StateInv CFG0 := by
  refine ⟨?_, ?_, ?_, ?_, ?_⟩
  · intro k hk
    simp [CFG0, alookup] at hk
  · intro j r hjr
    simp [CFG0] at hjr
  · intro k ids hk
    simp [CFG0, alookup] at hk
  · intro k hk
    simp [CFG0, alookup] at hk
  · rfl

lemma stateInv_rule {g g' : CFG} {lhs : String} {rhs : List String}
    {ps c : Option String} {pl : Places} {o : Nat}
    (hI : StateInv g) (h : ruleOp g lhs rhs ps c pl o = (g', none)) :
    StateInv g' := by
  obtain ⟨htp, hpl, hdup, hg⟩ := ruleOp_ok h
  subst hg
  set n := g.rules.length with hn
  set R : Rule := ⟨lhs, rhs, ps, c, pl, o⟩ with hR
  have hkey : alookup (ruleSri0 g lhs) lhs = some (ruleIds g lhs) := by
    rw [ruleSri0, ruleIds]
    cases hk : alookup g.symbol_rule_ids lhs with
    | some ids => simp [ruleSri0, hk]
    | none => simp [ruleSri0, hk, alookup_aset_self]
  have hother : ∀ k, k ≠ lhs →
      alookup (aset (ruleSri0 g lhs) lhs (ruleIds g lhs ++ [n])) k =
        alookup g.symbol_rule_ids k := by
    intro k hkne
    rw [alookup_aset_ne _ _ _ _ hkne, ruleSri0]
    cases hk : alookup g.symbol_rule_ids lhs with
    | some ids => simp
    | none => simp [alookup_aset_ne _ _ _ _ hkne]
  have hids_old : ∀ i ∈ ruleIds g lhs, ∃ r : Rule,
      g.rules[i]? = some r ∧ r.lhs = lhs := by
    intro i hi
    rw [ruleIds] at hi
    cases hk : alookup g.symbol_rule_ids lhs with
    | some ids =>
        have heq : alookup (ruleSri0 g lhs) lhs = some ids := by
          simp [ruleSri0, hk]
        rw [heq] at hi
        exact (hI.ids_sound lhs ids hk).2 i hi
    | none =>
        have heq : alookup (ruleSri0 g lhs) lhs = some [] := by
          simp [ruleSri0, hk, alookup_aset_self]
        rw [heq] at hi
        simp at hi
  have hget_n : (g.rules ++ [R])[n]? = some R := List.getElem?_concat_length _ _
  refine ⟨?_, ?_, ?_, ?_, ?_⟩
  · intro k hk
    by_cases hkne : k = lhs
    · subst hkne; exact htp
    · rw [hother k hkne] at hk
      exact hI.tp_disjoint k hk
  · intro j r hjr
    by_cases hjn : j < g.rules.length
    · rw [List.getElem?_append_left hjn] at hjr
      obtain ⟨ids, hids, hjids⟩ := hI.rules_indexed j r hjr
      by_cases hsame : r.lhs = lhs
      · refine ⟨ruleIds g lhs ++ [n], ?_, ?_⟩
        · rw [hsame, alookup_aset_self]
        · have hide : ids = ruleIds g lhs := by
            rw [hsame] at hids
            have : alookup (ruleSri0 g lhs) lhs = some ids := by
              rw [ruleSri0, if_pos (by rw [hids]; rfl)]
              exact hids
            rw [hkey] at this
            exact (Option.some.injEq _ _ ▸ this).symm
          exact List.mem_append_left _ (hide ▸ hjids)
      · refine ⟨ids, ?_, hjids⟩
        rw [hother r.lhs hsame]
        exact hids
    · have hjlt : j < (g.rules ++ [R]).length := getElem?_lt _ _ _ hjr
      have hjeq : j = n := by
        simp only [List.length_append, List.length_cons, List.length_nil] at hjlt
        omega
      subst hjeq
      rw [hget_n] at hjr
      cases hjr
      refine ⟨ruleIds g lhs ++ [n], ?_, List.mem_append_right _ (by simp)⟩
      rw [hR, alookup_aset_self]
  · intro k ids hk
    by_cases hkne : k = lhs
    · subst hkne
      rw [alookup_aset_self] at hk
      cases hk
      refine ⟨by simp, ?_⟩
      intro i hi
      rcases List.mem_append.mp hi with hi | hi
      · obtain ⟨r', hir, hirl⟩ := hids_old i hi
        refine ⟨r', ?_, hirl⟩
        rw [List.getElem?_append_left (getElem?_lt _ _ _ hir)]
        exact hir
      · simp at hi
        subst hi
        exact ⟨R, hget_n, rfl⟩
    · rw [hother k hkne] at hk
      obtain ⟨hne, hsound⟩ := hI.ids_sound k ids hk
      refine ⟨hne, ?_⟩
      intro i hi
      obtain ⟨r', hir, hirl⟩ := hsound i hi
      refine ⟨r', ?_, hirl⟩
      rw [List.getElem?_append_left (getElem?_lt _ _ _ hir)]
      exact hir
  · intro k hk
    by_cases hkne : k = lhs
    · subst hkne
      exact Finset.mem_union_left _ (Finset.mem_insert_self _ _)
    · rw [hother k hkne] at hk
      exact Finset.mem_union_left _
        (Finset.mem_insert_of_mem (hI.keys_in_symbols k hk))
  · show insert lhs g.symbols ∪ rhs.toFinset = _
    rw [mentionedSyms_append, ← hI.symbols_mentioned]
    simp only [mentionedSyms]
    ext x
    simp

lemma alookup_append_sing {β : Type} (l : List (String × β)) (k s : String)
    (v : β) (hkne : k ≠ s) (h : alookup l k = none) :
    alookup (l ++ [(s, v)]) k = none := by
  induction l with
  | nil => simp [alookup, hkne]
  | cons kv rest ih =>
      obtain ⟨k0, v0⟩ := kv
      rw [List.cons_append, alookup]
      rw [alookup] at h
      by_cases hkk : k = k0
      · simp [hkk] at h
      · simp only [if_neg hkk] at h ⊢
        exact ih h

lemma stateInv_assocLoop (level : Nat) :
    ∀ (syms : List String) (g g' : CFG), StateInv g →
      assocLoop g level syms = (g', none) → StateInv g' := by
  intro syms
  induction syms with
  | nil =>
      intro g g' hI h
      rw [assocLoop] at h
      cases h
      exact hI
  | cons s rest ih =>
      intro g g' hI h
      rw [assocLoop] at h
      split at h
      next h1 => exact absurd (congrArg Prod.snd h) (by simp)
      next h1 =>
        split at h
        next h2 => exact absurd (congrArg Prod.snd h) (by simp)
        next h2 =>
          refine ih _ _ ?_ h
          have hsri : alookup g.symbol_rule_ids s = none :=
            Option.not_isSome_iff_eq_none.mp (by simpa using h1)
          refine ⟨?_, hI.rules_indexed, hI.ids_sound, hI.keys_in_symbols,
            hI.symbols_mentioned⟩
          intro k hk
          have hold := hI.tp_disjoint k hk
          have hkne : k ≠ s := by
            intro hks
            subst hks
            rw [hsri] at hk
            simp at hk
          exact alookup_append_sing _ _ _ _ hkne hold

lemma stateInv_assoc {g g' : CFG} {d : Assoc} {syms : List String}
    (hI : StateInv g) (h : assocOp g d syms = (g', none)) : StateInv g' := by
  rw [assocOp] at h
  split at h
  next h1 => exact absurd (congrArg Prod.snd h) (by simp)
  next h1 =>
    refine stateInv_assocLoop _ syms _ _ ?_ h
    exact ⟨hI.tp_disjoint, hI.rules_indexed, hI.ids_sound, hI.keys_in_symbols,
      hI.symbols_mentioned⟩

/-- Every reachable grammar state satisfies the invariant. -/
lemma built_inv {g : CFG} (hb : Built g) : StateInv g := by
  induction hb with
  | init => exact stateInv_init
  | rule _ heq ih => exact stateInv_rule ih heq
  | assoc _ heq ih => exact stateInv_assoc ih heq
  | setStart ss _ ih =>
      exact ⟨ih.tp_disjoint, ih.rules_indexed, ih.ids_sound, ih.keys_in_symbols,
        ih.symbols_mentioned⟩

/-- In a reachable state the rule-id index keys are exactly the rule
left-hand sides. -/
lemma sriKeys_eq_lhsSet {g : CFG} (hI : StateInv g) : sriKeys g = lhsSet g := by
  ext k
  rw [mem_sriKeys_iff]
  constructor
  · intro hk
    obtain ⟨ids, hids⟩ := Option.isSome_iff_exists.mp hk
    obtain ⟨hne, hsound⟩ := hI.ids_sound k ids hids
    obtain ⟨i, hi⟩ := List.exists_mem_of_ne_nil ids hne
    obtain ⟨r, hir, hirl⟩ := hsound i hi
    rw [lhsSet, List.mem_toFinset, List.mem_map]
    exact ⟨r, List.getElem?_mem hir, hirl⟩
  · intro hk
    rw [lhsSet, List.mem_toFinset, List.mem_map] at hk
    obtain ⟨r, hr, hrk⟩ := hk
    obtain ⟨j, hjr⟩ := List.getElem?_of_mem hr
    obtain ⟨ids, hids, _⟩ := hI.rules_indexed j r hjr
    rw [hrk] at hids
    rw [hids]
    rfl

/-! ### Claims C7, C8, C9: rule declaration and the symbol universe -/

/-- C7, counterexample: on a grammar already holding `S → a`, redeclaring
`(S, [a])` with the out-of-bounds attribute descriptor `places = 1` raises
`AssertionError`, not `DuplicateRule` — the bounds assertion runs before
the duplicate check. -/
theorem C7_counterexample :
    (ruleOp gC7 "S" ["a"] none none (.pos 1) 5).2 = some Err.AssertionError ∧
    (ruleOp gC7 "S" ["a"] none none (.pos 1) 5).2 ≠
      some (Err.DuplicateRule "S" ["a"]) := by decide

/-- C7, amended: in any reachable grammar state holding a rule
`(lhs, rhs)`, redeclaring the same `(lhs, rhs)` raises `DuplicateRule` for
every precedence anchor, origin, and attribute descriptor that passes the
bounds assertion (an out-of-bounds descriptor raises `AssertionError`
first, as the counterexample shows). -/
theorem C7_theorem (g : CFG) (hb : Built g) (lhs : String) (rhs : List String)
    (r : Rule) (hr : r ∈ g.rules) (hlhs : r.lhs = lhs) (hrhs : r.rhs = rhs)
    (ps c : Option String) (pl : Places) (o : Nat)
    (hpl : placesCheck c pl rhs.length = true) :
    (ruleOp g lhs rhs ps c pl o).2 = some (Err.DuplicateRule lhs rhs) := by
  have hI := built_inv hb
  obtain ⟨j, hjr⟩ := List.getElem?_of_mem hr
  obtain ⟨ids, hids, hjids⟩ := hI.rules_indexed j r hjr
  rw [hlhs] at hids
  have hksome : (alookup g.symbol_rule_ids lhs).isSome := by rw [hids]; rfl
  have htp : ¬ (alookup g.token_precedence lhs).isSome = true := by
    rw [hI.tp_disjoint lhs hksome]
    simp
  have hridseq : ruleIds g lhs = ids := by
    rw [ruleIds, ruleSri0, if_pos hksome, hids]
    rfl
  have hany : (ruleIds g lhs).any (fun i => (g.rules.getD i default).rhs = rhs)
      = true := by
    rw [hridseq, List.any_eq_true]
    refine ⟨j, hjids, ?_⟩
    rw [List.getD_eq_getElem?_getD, hjr]
    simp [hrhs]
  rw [ruleOp, if_neg htp, if_neg (by simp [hpl]), if_pos hany]

/-- C7, witness: redeclaring `S → a` on `gC7` with a bounds-passing
descriptor raises `DuplicateRule`. -/
theorem C7_witness :
    (ruleOp gC7 "S" ["a"] (some "+") (some "k") (.many [0]) 7).2 =
      some (Err.DuplicateRule "S" ["a"]) :=
  C7_theorem gC7
    (Built.rule Built.init
      (by decide : ruleOp CFG0 "S" ["a"] none none (.pos 0) 0 = (gC7, none)))
    "S" ["a"] (gC7.rules.getD 0 default) (by decide) (by decide) (by decide)
    (some "+") (some "k") (.many [0]) 7 (by decide)

/-- C8: in every reachable grammar state, the apparent terminals and the
left-hand-side symbols are disjoint and together exhaust the symbol
universe, which is exactly the set of symbols mentioned by the rules. -/
theorem C8_theorem (g : CFG) (hb : Built g) :
    apparent_terminals g ∩ lhsSet g = ∅ ∧
    apparent_terminals g ∪ lhsSet g = g.symbols ∧
    g.symbols = mentionedSyms g.rules := by
  have hI := built_inv hb
  have hkeys := sriKeys_eq_lhsSet hI
  have hsub : lhsSet g ⊆ g.symbols := by
    intro k hk
    rw [← hkeys, mem_sriKeys_iff] at hk
    exact hI.keys_in_symbols k hk
  refine ⟨?_, ?_, hI.symbols_mentioned⟩
  · rw [apparent_terminals, hkeys]
    ext x
    simp
  · rw [apparent_terminals, hkeys]
    exact Finset.sdiff_union_of_subset hsub

/-- C8, witness: the C6 grammar state is reachable and satisfies the
partition. -/
theorem C8_witness :
    apparent_terminals gC6 ∩ lhsSet gC6 = ∅ ∧
    apparent_terminals gC6 ∪ lhsSet gC6 = gC6.symbols ∧
    gC6.symbols = mentionedSyms gC6.rules :=
  C8_theorem gC6
    (Built.setStart ["S"]
      (Built.rule
        (Built.rule
          (Built.rule Built.init
            (by decide : ruleOp CFG0 "S" ["x"] none none (.pos 0) 0 =
              ((ruleOp CFG0 "S" ["x"] none none (.pos 0) 0).1, none)))
          (by decide : ruleOp (ruleOp CFG0 "S" ["x"] none none (.pos 0) 0).1
              "A" ["B", "y"] none none (.many []) 1 =
            ((ruleOp (ruleOp CFG0 "S" ["x"] none none (.pos 0) 0).1
              "A" ["B", "y"] none none (.many []) 1).1, none)))
        (by decide : ruleOp (ruleOp (ruleOp CFG0 "S" ["x"] none none (.pos 0) 0).1
            "A" ["B", "y"] none none (.many []) 1).1
            "B" ["A", "x"] none none (.many []) 2 =
          ((ruleOp (ruleOp (ruleOp CFG0 "S" ["x"] none none (.pos 0) 0).1
            "A" ["B", "y"] none none (.many []) 1).1
            "B" ["A", "x"] none none (.many []) 2).1, none))))

/-- C9: a rejected `rule` call (bounds assertion or duplicate) is not
rolled back: the lhs and rhs symbols stay registered, and a previously
unseen lhs keeps an empty `symbol_rule_ids` entry, excluding it from
`apparent_terminals()` although it owns no rule. -/
theorem C9_theorem (g : CFG) (hb : Built g) (lhs : String) (rhs : List String)
    (ps c : Option String) (pl : Places) (o : Nat) (g' : CFG) (e : Err)
    (h : ruleOp g lhs rhs ps c pl o = (g', some e))
    (he : e = Err.AssertionError ∨ e = Err.DuplicateRule lhs rhs) :
    lhs ∈ g'.symbols ∧ (∀ s ∈ rhs, s ∈ g'.symbols) ∧
    g'.rules = g.rules ∧
    (alookup g.symbol_rule_ids lhs = none →
      alookup g'.symbol_rule_ids lhs = some [] ∧
      lhs ∉ apparent_terminals g' ∧ lhs ∉ lhsSet g') := by
  have hI := built_inv hb
  have hg := ruleOp_err h he
  subst hg
  refine ⟨Finset.mem_union_left _ (Finset.mem_insert_self _ _),
    fun s hs => Finset.mem_union_right _ (List.mem_toFinset.mpr hs), rfl, ?_⟩
  intro hnone
  have hsri : alookup (ruleG1 g lhs rhs).symbol_rule_ids lhs = some [] := by
    show alookup (ruleSri0 g lhs) lhs = some []
    rw [ruleSri0, hnone]
    simp [alookup_aset_self]
  refine ⟨hsri, ?_, ?_⟩
  · rw [apparent_terminals, Finset.mem_sdiff]
    intro hcontra
    exact hcontra.2 ((mem_sriKeys_iff _ _).mpr (by rw [hsri]; rfl))
  · intro hcontra
    rw [lhsSet, List.mem_toFinset, List.mem_map] at hcontra
    obtain ⟨r, hr, hrk⟩ := hcontra
    obtain ⟨j, hjr⟩ := List.getElem?_of_mem hr
    obtain ⟨ids, hids, _⟩ := hI.rules_indexed j r hjr
    rw [hrk, hnone] at hids
    cases hids

/-- C9, witness: declaring `X → y` on the empty grammar with the
out-of-range descriptor `places = 3` fails but leaves `X` and `y`
registered, with an empty rule-id entry for `X`. -/
theorem C9_witness :
    "X" ∈ (ruleOp CFG0 "X" ["y"] none none (.pos 3) 0).1.symbols ∧
    (∀ s ∈ ["y"], s ∈ (ruleOp CFG0 "X" ["y"] none none (.pos 3) 0).1.symbols) ∧
    (ruleOp CFG0 "X" ["y"] none none (.pos 3) 0).1.rules = CFG0.rules ∧
    (alookup CFG0.symbol_rule_ids "X" = none →
      alookup (ruleOp CFG0 "X" ["y"] none none (.pos 3) 0).1.symbol_rule_ids "X"
          = some [] ∧
      "X" ∉ apparent_terminals (ruleOp CFG0 "X" ["y"] none none (.pos 3) 0).1 ∧
      "X" ∉ lhsSet (ruleOp CFG0 "X" ["y"] none none (.pos 3) 0).1) :=
  C9_theorem CFG0 Built.init "X" ["y"] none none (.pos 3) 0
    (ruleOp CFG0 "X" ["y"] none none (.pos 3) 0).1 Err.AssertionError
    (by decide) (Or.inl rfl)

/-! ### Derivations: context closure, nullability, FIRST characterization -/

lemma Step.context {g : CFG} {u v : List String} (h : Step g u v)
    (α β : List String) : Step g (α ++ u ++ β) (α ++ v ++ β) := by
  obtain ⟨r, a, b, hr⟩ := h
  have := Step.mk (g := g) r (α ++ a) (b ++ β) hr
  simpa [List.append_assoc] using this

lemma Derives.append_right {g : CFG} {u v : List String} (h : Derives g u v)
    (w : List String) : Derives g (u ++ w) (v ++ w) := by
  refine Relation.ReflTransGen.lift (· ++ w) ?_ h
  intro a b hab
  simpa using hab.context [] w

lemma Derives.append_left {g : CFG} {u v : List String} (h : Derives g u v)
    (w : List String) : Derives g (w ++ u) (w ++ v) := by
  refine Relation.ReflTransGen.lift (w ++ ·) ?_ h
  intro a b hab
  simpa using hab.context w []

lemma Derives.append_congr {g : CFG} {u v w z : List String}
    (h1 : Derives g u v) (h2 : Derives g w z) :
    Derives g (u ++ w) (v ++ z) :=
  Relation.ReflTransGen.trans (h1.append_right w) (h2.append_left v)

lemma derives_nil_of_all {g : CFG} :
    ∀ l : List String, (∀ s ∈ l, Derives g [s] []) → Derives g l [] := by
  intro l
  induction l with
  | nil => intro _; exact Relation.ReflTransGen.refl
  | cons a rest ih =>
      intro h
      have := Derives.append_congr (h a (by simp)) (ih fun s hs => h s (by simp [hs]))
      simpa using this

lemma Nullable.derives {g : CFG} {x : String} (h : Nullable g x) :
    Derives g [x] [] := by
  induction h with
  | mk r hr _ ih =>
      have hstep : Step g [r.lhs] r.rhs := by
        have := Step.mk (g := g) r [] [] hr
        simpa using this
      exact Relation.ReflTransGen.trans (Relation.ReflTransGen.single hstep)
        (derives_nil_of_all r.rhs ih)

lemma nullable_of_derives_nil {g : CFG} :
    ∀ l : List String, Derives g l [] → ∀ s ∈ l, Nullable g s := by
  intro l h
  induction h using Relation.ReflTransGen.head_induction_on with
  | refl => intro s hs; cases hs
  | head hstep _ ih =>
      obtain ⟨r, a, b, hr⟩ := hstep
      intro s hs
      rcases List.mem_append.mp hs with hs | hs
      · exact ih s (by simp [hs])
      · rcases List.mem_cons.mp hs with hs | hs
        · subst hs
          exact Nullable.mk r hr fun u hu => ih u (by simp [hu])
        · exact ih s (by simp [hs])

lemma nullable_iff_derives {g : CFG} (x : String) :
    Nullable g x ↔ Derives g [x] [] :=
  ⟨Nullable.derives, fun h => nullable_of_derives_nil [x] h x (by simp)⟩

lemma mem_take_getElem? {α : Type} (l : List α) (p : Nat) (s : α)
    (h : s ∈ l.take p) : ∃ i, i < p ∧ l[i]? = some s := by
  obtain ⟨i, hi⟩ := List.getElem?_of_mem h
  have hilt : i < (l.take p).length := getElem?_lt _ _ _ hi
  have hlen : (l.take p).length ≤ p := by
    simp [List.length_take]
  refine ⟨i, by omega, ?_⟩
  rw [← List.getElem?_take_of_lt (l := l) (by omega : i < p)]
  exact hi

lemma firstSpec_derives {g : CFG} {x t : String} (h : FirstSpec g x t) :
    ∃ γ, Derives g [x] (t :: γ) := by
  induction h using Relation.ReflTransGen.head_induction_on with
  | refl => exact ⟨[], Relation.ReflTransGen.refl⟩
  | @head a b hedge _ ih =>
      obtain ⟨γ, hder⟩ := ih
      obtain ⟨r, hr, hlhs, p, hp, hpre⟩ := hedge
      have hplen : p < r.rhs.length := getElem?_lt _ _ _ hp
      have hb : r.rhs[p] = b := by
        rw [List.getElem?_eq_getElem hplen] at hp
        exact Option.some.inj hp
      have hsplit : r.rhs = r.rhs.take p ++ b :: r.rhs.drop (p + 1) := by
        have hdrop := List.drop_eq_getElem_cons hplen
        rw [hb] at hdrop
        rw [← hdrop, List.take_append_drop]
      have hstep : Derives g [a] r.rhs := by
        have := Step.mk (g := g) r [] [] hr
        rw [hlhs] at this
        exact Relation.ReflTransGen.single (by simpa using this)
      have htake : Derives g (r.rhs.take p) [] := by
        refine derives_nil_of_all _ ?_
        intro s hs
        obtain ⟨i, hip, his⟩ := mem_take_getElem? _ _ _ hs
        exact (hpre i hip s his).derives
      have hmid : Derives g ([b] ++ r.rhs.drop (p + 1))
          ((t :: γ) ++ r.rhs.drop (p + 1)) := hder.append_right _
      have hall := Derives.append_congr htake hmid
      have hall2 : Derives g r.rhs (t :: (γ ++ r.rhs.drop (p + 1))) := by
        nth_rewrite 1 [hsplit]
        simpa using hall
      exact ⟨γ ++ r.rhs.drop (p + 1), Relation.ReflTransGen.trans hstep hall2⟩

lemma derives_first_aux {g : CFG} {t : String} {γ : List String} :
    ∀ l : List String, Derives g l (t :: γ) →
      ∃ (i : Nat) (s : String), l[i]? = some s ∧
        (∀ j, j < i → ∀ u, l[j]? = some u → Nullable g u) ∧
        FirstSpec g s t := by
  intro l h
  induction h using Relation.ReflTransGen.head_induction_on with
  | refl =>
      refine ⟨0, t, by simp, ?_, Relation.ReflTransGen.refl⟩
      intro j hj
      omega
  | @head a c hstep _ ih =>
      obtain ⟨i, s, his, hpre, hfs⟩ := ih
      obtain ⟨r, α, β, hr⟩ := hstep
      simp only [List.append_assoc] at his hpre
      have eqA : ∀ (L : List String) (j : Nat), j < α.length →
          (α ++ L)[j]? = α[j]? := by
        intro L j hj
        exact List.getElem?_append_left hj
      have eqB : ∀ (L : List String) (d : Nat),
          (α ++ L)[α.length + d]? = L[d]? := by
        intro L d
        rw [List.getElem?_append_right (by omega)]
        congr 1
        omega
      by_cases hi1 : i < α.length
      · -- the interesting position is inside the untouched prefix α
        refine ⟨i, s, ?_, ?_, hfs⟩
        · rw [eqA _ i hi1]
          rw [eqA _ i hi1] at his
          exact his
        · intro j hj u hju
          rw [eqA _ j (by omega)] at hju
          refine hpre j hj u ?_
          rw [eqA _ j (by omega)]
          exact hju
      · by_cases hi2 : i < α.length + r.rhs.length
        · -- the interesting position is inside the expansion of r.lhs
          have hk : i = α.length + (i - α.length) := by omega
          have hsk : r.rhs[i - α.length]? = some s := by
            rw [hk, eqB] at his
            rw [List.getElem?_append_left (by omega)] at his
            exact his
          have hedge : edgeSpec g r.lhs s := by
            refine ⟨r, hr, rfl, i - α.length, hsk, ?_⟩
            intro i' hi' u hiu
            refine hpre (α.length + i') (by omega) u ?_
            rw [eqB]
            rw [List.getElem?_append_left (by omega)]
            exact hiu
          refine ⟨α.length, r.lhs, ?_, ?_,
            Relation.ReflTransGen.head hedge hfs⟩
          · have h0 := eqB (r.lhs :: β) 0
            simp only [Nat.add_zero] at h0
            rw [h0]
            simp
          · intro j hj u hju
            rw [eqA _ j hj] at hju
            refine hpre j (by omega) u ?_
            rw [eqA _ j hj]
            exact hju
        · -- the interesting position is inside the untouched suffix β
          have hsd : β[i - α.length - r.rhs.length]? = some s := by
            have hk : i = α.length + (i - α.length) := by omega
            rw [hk, eqB] at his
            rw [List.getElem?_append_right (by omega)] at his
            exact his
          refine ⟨i - r.rhs.length + 1, s, ?_, ?_, hfs⟩
          · have hk : i - r.rhs.length + 1 =
                α.length + (i - α.length - r.rhs.length + 1) := by
              omega
            rw [hk, eqB, List.getElem?_cons_succ]
            exact hsd
          · intro j hj u hju
            by_cases hjα : j < α.length
            · rw [eqA _ j hjα] at hju
              refine hpre j (by omega) u ?_
              rw [eqA _ j hjα]
              exact hju
            · by_cases hjl : j = α.length
              · subst hjl
                have hul : u = r.lhs := by
                  have h0 := eqB (r.lhs :: β) 0
                  simp only [Nat.add_zero] at h0
                  rw [h0] at hju
                  simp at hju
                  exact hju.symm
                subst hul
                refine Nullable.mk r hr ?_
                intro v hv
                obtain ⟨k', hk'⟩ := List.getElem?_of_mem hv
                have hk'len : k' < r.rhs.length := getElem?_lt _ _ _ hk'
                refine hpre (α.length + k') (by omega) v ?_
                rw [eqB]
                rw [List.getElem?_append_left hk'len]
                exact hk'
              · have hju2 : β[j - α.length - 1]? = some u := by
                  have hd : j = α.length + (j - α.length - 1 + 1) := by omega
                  rw [hd, eqB, List.getElem?_cons_succ] at hju
                  exact hju
                refine hpre (α.length + (r.rhs.length + (j - α.length - 1)))
                  (by omega) u ?_
                rw [eqB, List.getElem?_append_right (by omega)]
                rw [← hju2]
                congr 1
                omega

/-! ### Counting and hangar bookkeeping -/

lemma countR_append (r : Nat) (l1 l2 : List (Nat × Nat)) :
    countR r (l1 ++ l2) = countR r l1 + countR r l2 := by
  simp [countR, List.filter_append]

lemma countR_reverse (r : Nat) (l : List (Nat × Nat)) :
    countR r l.reverse = countR r l := by
  simp [countR, List.filter_reverse]

lemma countR_cons (r : Nat) (it : Nat × Nat) (l : List (Nat × Nat)) :
    countR r (it :: l) = (if it.1 = r then 1 else 0) + countR r l := by
  by_cases h : it.1 = r <;> simp [countR, List.filter_cons, h, Nat.add_comm]

lemma countR_pos_of_mem {r q : Nat} {l : List (Nat × Nat)} (h : (r, q) ∈ l) :
    0 < countR r l := by
  induction l with
  | nil => cases h
  | cons it rest ih =>
      rw [countR_cons]
      rcases List.mem_cons.mp h with h | h
      · subst h; simp
      · have := ih h; omega

lemma sumW_append (g : CFG) (l1 l2 : List (Nat × Nat)) :
    ((l1 ++ l2).map (wt g)).sum = (l1.map (wt g)).sum + (l2.map (wt g)).sum := by
  simp

lemma sumW_reverse (g : CFG) (l : List (Nat × Nat)) :
    (l.reverse.map (wt g)).sum = (l.map (wt g)).sum := by
  rw [List.map_reverse, List.sum_reverse]

lemma hDel_of_not_mem (h : List (String × List (Nat × Nat))) (k : String)
    (hk : k ∉ h.map Prod.fst) : hDel h k = h := by
  rw [hDel, List.filter_eq_self]
  intro kv hkv
  simp only [ne_eq, decide_not]
  have : kv.1 ≠ k := by
    intro hcontra
    exact hk (List.mem_map.mpr ⟨kv, hkv, hcontra⟩)
  simpa using this

lemma alookup_mem {β : Type} {l : List (String × β)} {k : String} {v : β}
    (h : alookup l k = some v) : (k, v) ∈ l := by
  induction l with
  | nil => cases h
  | cons kv rest ih =>
      obtain ⟨k0, v0⟩ := kv
      rw [alookup] at h
      by_cases hk : k = k0
      · rw [if_pos hk] at h
        cases h
        simp [hk]
      · rw [if_neg hk] at h
        exact List.mem_cons_of_mem _ (ih h)

lemma hGet_aset_self (h : List (String × List (Nat × Nat))) (k : String)
    (v : List (Nat × Nat)) : hGet (aset h k v) k = v := by
  rw [hGet, alookup_aset_self]
  rfl

lemma hGet_aset_ne (h : List (String × List (Nat × Nat))) (k k' : String)
    (v : List (Nat × Nat)) (hne : k' ≠ k) : hGet (aset h k v) k' = hGet h k' := by
  rw [hGet, alookup_aset_ne _ _ _ _ hne, hGet]

lemma alookup_hDel_ne (h : List (String × List (Nat × Nat))) (k k' : String)
    (hne : k' ≠ k) : alookup (hDel h k) k' = alookup h k' := by
  induction h with
  | nil => rfl
  | cons kv rest ih =>
      obtain ⟨k0, v0⟩ := kv
      by_cases hk0 : k0 = k
      · subst hk0
        have h1 : hDel ((k0, v0) :: rest) k0 = hDel rest k0 := by
          simp [hDel, List.filter_cons]
        rw [h1, ih]
        simp only [alookup]
        rw [if_neg hne]
      · have h1 : hDel ((k0, v0) :: rest) k = (k0, v0) :: hDel rest k := by
          simp [hDel, List.filter_cons, hk0]
        rw [h1]
        simp only [alookup]
        by_cases hkk : k' = k0
        · simp [hkk]
        · rw [if_neg hkk, if_neg hkk]
          exact ih

lemma hGet_hDel_ne (h : List (String × List (Nat × Nat))) (k k' : String)
    (hne : k' ≠ k) : hGet (hDel h k) k' = hGet h k' := by
  rw [hGet, alookup_hDel_ne _ _ _ hne, hGet]

lemma hGet_hDel_self (h : List (String × List (Nat × Nat))) (k : String) :
    hGet (hDel h k) k = [] := by
  rw [hGet]
  have : alookup (hDel h k) k = none := by
    rw [alookup_eq_none_iff]
    intro hcontra
    obtain ⟨kv, hkv, hfst⟩ := List.mem_map.mp hcontra
    have := List.of_mem_filter hkv
    simp [hfst] at this
  rw [this]
  rfl

lemma hangSum_decompose (F : List (Nat × Nat) → Nat) (hF0 : F [] = 0)
    (h : List (String × List (Nat × Nat))) (k : String)
    (hnod : (h.map Prod.fst).Nodup) :
    hangSum F h = F (hGet h k) + hangSum F (hDel h k) := by
  induction h with
  | nil => simp [hangSum, hGet, hDel, alookup, hF0]
  | cons kv rest ih =>
      obtain ⟨k0, l0⟩ := kv
      rw [List.map_cons, List.nodup_cons] at hnod
      by_cases hk : k0 = k
      · subst hk
        have hrest : hDel ((k0, l0) :: rest) k0 = rest := by
          have h1 : hDel ((k0, l0) :: rest) k0 = hDel rest k0 := by
            simp [hDel, List.filter_cons]
          rw [h1]
          exact hDel_of_not_mem rest k0 hnod.1
        have hget : hGet ((k0, l0) :: rest) k0 = l0 := by
          rw [hGet, alookup, if_pos rfl]
          rfl
        rw [hrest, hget]
        show F l0 + (List.map (fun kv => F kv.2) rest).sum = F l0 + hangSum F rest
        rfl
      · have hget : hGet ((k0, l0) :: rest) k = hGet rest k := by
          rw [hGet, alookup, if_neg (fun hc => hk hc.symm), hGet]
        have hdel : hDel ((k0, l0) :: rest) k = (k0, l0) :: hDel rest k := by
          simp [hDel, List.filter_cons, fun hc => hk hc]
        rw [hget, hdel]
        show F l0 + (List.map (fun kv => F kv.2) rest).sum =
          F (hGet rest k) + (F l0 + (List.map (fun kv => F kv.2) (hDel rest k)).sum)
        have hih := ih hnod.2
        rw [hangSum, hangSum] at hih
        omega

lemma hangSum_aset (F : List (Nat × Nat) → Nat)
    (hFadd : ∀ l1 l2, F (l1 ++ l2) = F l1 + F l2)
    (h : List (String × List (Nat × Nat))) (k : String) (l : List (Nat × Nat)) :
    hangSum F (aset h k (hGet h k ++ l)) = hangSum F h + F l := by
  have hF0 : F [] = 0 := by
    have := hFadd [] []
    simp at this
    omega
  induction h with
  | nil =>
      show F ([] ++ l) + 0 = 0 + F l
      rw [hFadd, hF0]
      omega
  | cons kv rest ih =>
      obtain ⟨k0, l0⟩ := kv
      by_cases hk : k = k0
      · subst hk
        have hget : hGet ((k, l0) :: rest) k = l0 := by
          rw [hGet, alookup, if_pos rfl]
          rfl
        have haset : aset ((k, l0) :: rest) k (hGet ((k, l0) :: rest) k ++ l)
            = (k, l0 ++ l) :: rest := by
          rw [hget, aset, if_pos rfl]
        rw [haset]
        show F (l0 ++ l) + (List.map (fun kv => F kv.2) rest).sum =
          (F l0 + (List.map (fun kv => F kv.2) rest).sum) + F l
        rw [hFadd]
        omega
      · have hget : hGet ((k0, l0) :: rest) k = hGet rest k := by
          rw [hGet, alookup, if_neg hk, hGet]
        have haset : aset ((k0, l0) :: rest) k (hGet ((k0, l0) :: rest) k ++ l)
            = (k0, l0) :: aset rest k (hGet rest k ++ l) := by
          rw [hget, aset, if_neg hk]
        rw [haset]
        show F l0 + (List.map (fun kv => F kv.2) (aset rest k (hGet rest k ++ l))).sum =
          (F l0 + (List.map (fun kv => F kv.2) rest).sum) + F l
        have hih := ih
        rw [hangSum, hangSum] at hih
        omega

lemma mem_hangItems {st : FState} {y : String} {it : Nat × Nat}
    (hmem : it ∈ hGet st.hangar y) : it ∈ hangItems st := by
  rw [hangItems, List.mem_flatten]
  rw [hGet] at hmem
  cases halo : alookup st.hangar y with
  | none => rw [halo] at hmem; cases hmem
  | some l =>
      rw [halo] at hmem
      exact ⟨l, List.mem_map.mpr ⟨(y, l), alookup_mem halo, rfl⟩, hmem⟩

lemma ruleAt_mem {g : CFG} {r : Nat} (h : r < g.rules.length) :
    g.rules.getD r default ∈ g.rules := by
  have heq : g.rules.getD r default = g.rules[r] := by
    rw [List.getD_eq_getElem?_getD, List.getElem?_eq_getElem h]
    rfl
  rw [heq]
  exact List.getElem_mem h

lemma rsym_lt {g : CFG} {r p : Nat} {s : String} (h : rsym g r p = some s) :
    p < rlen g r := getElem?_lt _ _ _ h

lemma rsym_mem {g : CFG} {r p : Nat} {s : String} (h : rsym g r p = some s) :
    s ∈ (g.rules.getD r default).rhs := List.getElem?_mem h

lemma rsym_getD {g : CFG} {r p : Nat} (h : p < rlen g r) :
    rsym g r p = some ((g.rules.getD r default).rhs.getD p "") := by
  rw [rsym, List.getElem?_eq_getElem h, List.getD_eq_getElem _ _ h]

lemma mem_rhs_rsym {g : CFG} {r : Nat} {s : String}
    (h : s ∈ (g.rules.getD r default).rhs) : ∃ i, rsym g r i = some s :=
  List.getElem?_of_mem h

/-- Popping the top of the work stack: it is its rule's unique obligation,
active, with a nullable prefix and all earlier edges recorded. -/
lemma pop_facts {g : CFG} {st : FState} {r p : Nat} {rest : List (Nat × Nat)}
    (hI : WInv g st) (hw : st.work = (r, p) :: rest) :
    r < g.rules.length ∧ p ≤ rlen g r ∧ prefixIn g st.epsilon r p ∧
      edgesTo g st r p ∧ countR r rest = 0 ∧
      hangSum (countR r) st.hangar = 0 := by
  have hmem : (r, p) ∈ allItems st := by
    rw [allItems, hw]
    exact List.mem_append_left _ (by simp)
  have hrN : r < g.rules.length := (hI.items_valid _ hmem).1
  have hple : p ≤ rlen g r := (hI.items_valid _ hmem).2
  have hcw : countR r st.work = 1 + countR r rest := by
    rw [hw, countR_cons]
    simp
  rcases hI.token r hrN with ⟨q, _, hcount, hedges, hloc⟩ | ⟨_, _, hcount⟩
  · have hzero : countR r rest = 0 ∧ hangSum (countR r) st.hangar = 0 := by
      rw [itemCount, hcw] at hcount
      omega
    rcases hloc with ⟨hqw, hqpre⟩ | ⟨y, _, _, _, hqh, _⟩
    · have hqp : q = p := by
        rw [hw] at hqw
        rcases List.mem_cons.mp hqw with h | h
        · exact (Prod.mk.injEq _ _ _ _ ▸ h).2.symm ▸ rfl
        · exact absurd (countR_pos_of_mem h) (by omega)
      subst hqp
      exact ⟨hrN, hple, hqpre, hedges, hzero.1, hzero.2⟩
    · exfalso
      have h1 : 0 < countR r (hGet st.hangar y) := countR_pos_of_mem hqh
      have h2 := hangSum_decompose (countR r) (by simp [countR])
        st.hangar y hI.hangar_keys
      omega
  · exfalso
    rw [itemCount, hcw] at hcount
    omega

lemma range_map_getD {α β : Type} (F : α → β) (d : α) :
    ∀ l : List α, (List.range l.length).map (fun i => F (l.getD i d)) = l.map F := by
  intro l
  induction l with
  | nil => simp
  | cons a tl ih =>
      rw [List.length_cons, List.range_succ_eq_map, List.map_cons, List.map_map]
      rw [List.map_cons]
      congr 1

lemma itemCount_init (g : CFG) (r : Nat) :
    itemCount (fInit g) r = if r < g.rules.length then 1 else 0 := by
  rw [itemCount, fInit]
  have h2 : hangSum (countR r) [] = 0 := by simp [hangSum]
  rw [h2, countR_reverse]
  have : ∀ N, countR r ((List.range N).map (fun i => (i, 0))) =
      if r < N then 1 else 0 := by
    intro N
    induction N with
    | zero => simp [countR]
    | succ n ih =>
        rw [List.range_succ, List.map_append, countR_append, ih]
        by_cases hnr : n = r
        · subst hnr
          simp [countR]
        · have h3 : countR r (List.map (fun i => (i, 0)) [n]) = 0 := by
            simp [countR, hnr]
          rw [h3]
          by_cases h4 : r < n
          · rw [if_pos h4, if_pos (by omega)]
          · rw [if_neg h4, if_neg (by omega)]

  rw [this]
  simp

lemma measureW_init (g : CFG) : measureW g (fInit g) = fFuel g := by
  rw [measureW, fInit]
  have h2 : hangSum (fun l => (l.map (wt g)).sum) [] = 0 := by simp [hangSum]
  rw [h2, Nat.add_zero]
  rw [sumW_reverse, List.map_map]
  rw [fFuel]
  have := range_map_getD (fun ru : Rule => ru.rhs.length + 1) default g.rules
  rw [← this]
  congr 1

lemma wInv_init (g : CFG) : WInv g (fInit g) := by
  refine ⟨?_, ?_, ?_, ?_, ?_, ?_, ?_, ?_⟩
  · intro s hs
    simp [fInit] at hs
  · intro x hx
    simp [fInit, hx]
  · intro x hx
    simp [fInit, hx]
  · intro x y hy
    simp only [fInit] at hy
    by_cases hx : x ∈ g.symbols
    · rw [if_pos hx] at hy
      exact Or.inl ⟨(Finset.mem_singleton.mp hy), hx⟩
    · rw [if_neg hx] at hy
      cases Finset.not_mem_empty _ hy
  · intro it hit
    rw [allItems] at hit
    simp only [fInit, hangItems, List.map_nil, List.flatten_nil,
      List.append_nil] at hit
    rw [List.mem_reverse, List.mem_map] at hit
    obtain ⟨i, hi, hieq⟩ := hit
    rw [List.mem_range] at hi
    rw [← hieq]
    exact ⟨hi, by omega⟩
  · intro r hr
    refine Or.inl ⟨0, by omega, ?_, ?_, Or.inl ⟨?_, ?_⟩⟩
    · rw [itemCount_init, if_pos hr]
    · intro p hp
      omega
    · show (r, 0) ∈ (fInit g).work
      simp only [fInit, List.mem_reverse, List.mem_map]
      exact ⟨r, by simp [hr], rfl⟩
    · intro i hi
      omega
  · simp [fInit]
  · intro kv hkv
    simp [fInit] at hkv

lemma prefixIn_mono {g : CFG} {S S' : Finset String} {r q : Nat}
    (hs : S ⊆ S') (h : prefixIn g S r q) : prefixIn g S' r q :=
  fun i hi s his => hs (h i hi s his)

lemma edgesTo_mono {g : CFG} {st st' : FState} {r q : Nat}
    (hf : ∀ x, st.first x ⊆ st'.first x) (h : edgesTo g st r q) :
    edgesTo g st' r q :=
  fun p hp s hps => hf _ (h p hp s hps)

lemma mem_aset {β : Type} {l : List (String × β)} {k : String} {v : β}
    {kv : String × β} (h : kv ∈ aset l k v) : kv = (k, v) ∨ kv ∈ l := by
  induction l with
  | nil => simpa [aset] using h
  | cons kv0 rest ih =>
      obtain ⟨k0, v0⟩ := kv0
      rw [aset] at h
      by_cases hk : k = k0
      · rw [if_pos hk] at h
        rcases List.mem_cons.mp h with h | h
        · subst hk; exact Or.inl h
        · exact Or.inr (List.mem_cons_of_mem _ h)
      · rw [if_neg hk] at h
        rcases List.mem_cons.mp h with h | h
        · exact Or.inr (by simp [h])
        · rcases ih h with h | h
          · exact Or.inl h
          · exact Or.inr (List.mem_cons_of_mem _ h)

lemma map_fst_aset {β : Type} (l : List (String × β)) (k : String) (v : β) :
    (aset l k v).map Prod.fst =
      if (alookup l k).isSome then l.map Prod.fst else l.map Prod.fst ++ [k] := by
  induction l with
  | nil => simp [aset, alookup]
  | cons kv0 rest ih =>
      obtain ⟨k0, v0⟩ := kv0
      rw [aset, alookup]
      by_cases hk : k = k0
      · rw [if_pos hk, if_pos hk]
        simp [hk]
      · rw [if_neg hk, if_neg hk, List.map_cons, List.map_cons, ih]
        by_cases hs : (alookup rest k).isSome
        · rw [if_pos hs, if_pos hs]
        · rw [if_neg hs, if_neg hs]
          rfl

lemma nodup_aset {β : Type} {l : List (String × β)} {k : String} {v : β}
    (h : (l.map Prod.fst).Nodup) : ((aset l k v).map Prod.fst).Nodup := by
  rw [map_fst_aset]
  by_cases hs : (alookup l k).isSome
  · rw [if_pos hs]; exact h
  · rw [if_neg hs]
    have hk : k ∉ l.map Prod.fst := by
      rw [← alookup_isSome_iff]
      simpa using hs
    rw [List.nodup_append]
    exact ⟨h, List.nodup_singleton k, by simpa using hk⟩

lemma hangItems_hDel_subset {st : FState} {k : String} {it : Nat × Nat}
    (h : it ∈ ((hDel st.hangar k).map Prod.snd).flatten) : it ∈ hangItems st := by
  rw [List.mem_flatten] at h
  obtain ⟨L, hL, hit⟩ := h
  obtain ⟨kv, hkv, hkvL⟩ := List.mem_map.mp hL
  rw [hangItems, List.mem_flatten]
  exact ⟨L, List.mem_map.mpr ⟨kv, List.mem_of_mem_filter hkv, hkvL⟩, hit⟩

lemma fStep_finish_rel {g : CFG} {st : FState} {r p : Nat}
    {rest : List (Nat × Nat)} (hw : st.work = (r, p) :: rest)
    (hp : p = (g.rules.getD r default).rhs.length)
    (hrel : hGet st.hangar (g.rules.getD r default).lhs ≠ []) :
    fStep g st = ⟨insert (g.rules.getD r default).lhs st.epsilon, st.first,
      hDel st.hangar (g.rules.getD r default).lhs,
      (hGet st.hangar (g.rules.getD r default).lhs).reverse ++ rest⟩ := by
  rw [fStep, hw]
  simp only [if_pos hp, if_pos hrel]

lemma fStep_finish_norel {g : CFG} {st : FState} {r p : Nat}
    {rest : List (Nat × Nat)} (hw : st.work = (r, p) :: rest)
    (hp : p = (g.rules.getD r default).rhs.length)
    (hrel : ¬ hGet st.hangar (g.rules.getD r default).lhs ≠ []) :
    fStep g st = { st with
      epsilon := insert (g.rules.getD r default).lhs st.epsilon
      work := rest } := by
  rw [fStep, hw]
  simp only [if_pos hp, if_neg hrel]

lemma fStep_advance {g : CFG} {st : FState} {r p : Nat}
    {rest : List (Nat × Nat)} (hw : st.work = (r, p) :: rest)
    (hp : ¬ p = (g.rules.getD r default).rhs.length)
    (hin : (g.rules.getD r default).rhs.getD p "" ∈ st.epsilon) :
    fStep g st = { st with
      first := fun x => if x = (g.rules.getD r default).lhs then
        insert ((g.rules.getD r default).rhs.getD p "")
          (st.first (g.rules.getD r default).lhs)
        else st.first x
      work := (r, p + 1) :: rest } := by
  rw [fStep, hw]
  simp only [if_neg hp, if_pos hin]

lemma fStep_hang {g : CFG} {st : FState} {r p : Nat}
    {rest : List (Nat × Nat)} (hw : st.work = (r, p) :: rest)
    (hp : ¬ p = (g.rules.getD r default).rhs.length)
    (hin : ¬ (g.rules.getD r default).rhs.getD p "" ∈ st.epsilon) :
    fStep g st = { st with
      first := fun x => if x = (g.rules.getD r default).lhs then
        insert ((g.rules.getD r default).rhs.getD p "")
          (st.first (g.rules.getD r default).lhs)
        else st.first x
      work := rest
      hangar := aset st.hangar ((g.rules.getD r default).rhs.getD p "")
        (hGet st.hangar ((g.rules.getD r default).rhs.getD p "") ++
          [(r, p + 1)]) } := by
  rw [fStep, hw]
  simp only [if_neg hp, if_neg hin]

lemma finish_nullable {g : CFG} {st : FState} {r p : Nat} (hI : WInv g st)
    (hrN : r < g.rules.length) (hp : p = (g.rules.getD r default).rhs.length)
    (hpre : prefixIn g st.epsilon r p) :
    Nullable g (g.rules.getD r default).lhs := by
  refine Nullable.mk (g.rules.getD r default) (ruleAt_mem hrN) ?_
  intro s hs
  obtain ⟨i, hi⟩ := mem_rhs_rsym hs
  have hilt : i < rlen g r := rsym_lt hi
  refine hI.eps_sound s (hpre i ?_ s hi)
  rw [rlen] at hilt
  omega

/-- Preservation through a finishing pop that releases parked
obligations. -/
lemma wstep_finish_rel {g : CFG} {st : FState} {r p : Nat}
    {rest : List (Nat × Nat)} (hI : WInv g st) (hw : st.work = (r, p) :: rest)
    (hp : p = (g.rules.getD r default).rhs.length)
    (hrel : hGet st.hangar (g.rules.getD r default).lhs ≠ []) :
    WInv g (fStep g st) ∧ measureW g (fStep g st) + 1 = measureW g st := by
  obtain ⟨hrN, hple, hpre, hedg, hcrest, hchang⟩ := pop_facts hI hw
  have hNl : Nullable g (g.rules.getD r default).lhs :=
    finish_nullable hI hrN hp hpre
  rw [fStep_finish_rel hw hp hrel]
  have hdecomp : ∀ r'' : Nat, hangSum (countR r'') st.hangar =
      countR r'' (hGet st.hangar (g.rules.getD r default).lhs) +
        hangSum (countR r'') (hDel st.hangar (g.rules.getD r default).lhs) :=
    fun r'' => hangSum_decompose (countR r'') (by simp [countR]) st.hangar _
      hI.hangar_keys
  have hcnt : ∀ r'' : Nat, itemCount st r'' =
      (if r = r'' then 1 else 0) +
      (countR r'' ((hGet st.hangar (g.rules.getD r default).lhs).reverse ++ rest) +
        hangSum (countR r'') (hDel st.hangar (g.rules.getD r default).lhs)) := by
    intro r''
    rw [itemCount, hw, countR_cons, hdecomp r'', countR_append, countR_reverse]
    simp only
    omega
  constructor
  · refine ⟨?_, hI.first_base, hI.first_none, hI.first_sound, ?_, ?_, ?_, ?_⟩
    · intro s hs
      rcases Finset.mem_insert.mp hs with hs | hs
      · subst hs; exact hNl
      · exact hI.eps_sound s hs
    · intro it hit
      rw [allItems] at hit
      rcases List.mem_append.mp hit with hit | hit
      · rcases List.mem_append.mp hit with hit | hit
        · refine hI.items_valid it ?_
          rw [allItems]
          exact List.mem_append_right _
            (mem_hangItems (List.mem_reverse.mp hit))
        · refine hI.items_valid it ?_
          rw [allItems, hw]
          exact List.mem_append_left _ (List.mem_cons_of_mem _ hit)
      · exact hI.items_valid it
          (List.mem_append_right _ (hangItems_hDel_subset hit))
    · intro r'' hr''
      by_cases heq : r = r''
      · subst heq
        refine Or.inr ⟨Finset.mem_insert_self _ _, ?_, ?_⟩
        · have hE : edgesTo g st r (rlen g r) := by
            rw [rlen, ← hp]
            exact hedg
          exact fun p' hp' s hps => hE p' hp' s hps
        · have := hcnt r
          rw [if_pos rfl] at this
          have hc1 : itemCount st r = 1 := by
            rw [itemCount, hw, countR_cons]
            simp [hcrest, hchang]
          rw [hc1] at this
          rw [itemCount]
          simp only
          omega
      · rcases hI.token r'' hr'' with ⟨q, hqle, hcount, hedq, hloc⟩ |
          ⟨hfin, hfe, hfc⟩
        · refine Or.inl ⟨q, hqle, ?_, edgesTo_mono (fun x a ha => ha) hedq, ?_⟩
          · have := hcnt r''
            rw [if_neg heq] at this
            rw [itemCount]
            simp only
            omega
          · rcases hloc with ⟨hqw, hqpre⟩ | ⟨y, hq1, hqs, hyeps, hqh, hqpre⟩
            · refine Or.inl ⟨?_, prefixIn_mono (Finset.subset_insert _ _) hqpre⟩
              rw [hw] at hqw
              rcases List.mem_cons.mp hqw with hcontra | hqw
              · exact absurd (congrArg Prod.fst hcontra).symm heq
              · exact List.mem_append_right _ hqw
            · by_cases hy : y = (g.rules.getD r default).lhs
              · subst hy
                refine Or.inl ⟨List.mem_append_left _
                  (List.mem_reverse.mpr hqh), ?_⟩
                intro i hi s his
                by_cases hiq : i < q - 1
                · exact Finset.mem_insert_of_mem (hqpre i hiq s his)
                · have hieq : i = q - 1 := by omega
                  subst hieq
                  rw [hqs] at his
                  rw [Option.some.inj his]
                  exact Finset.mem_insert_self _ _
              · refine Or.inr ⟨y, hq1, hqs, ?_, ?_,
                  prefixIn_mono (Finset.subset_insert _ _) hqpre⟩
                · intro hcontra
                  rcases Finset.mem_insert.mp hcontra with hc | hc
                  · exact hy hc
                  · exact hyeps hc
                · show (r'', q) ∈ hGet (hDel st.hangar _) y
                  rw [hGet_hDel_ne _ _ _ hy]
                  exact hqh
        · refine Or.inr ⟨Finset.mem_insert_of_mem hfin,
            edgesTo_mono (fun x a ha => ha) hfe, ?_⟩
          have := hcnt r''
          rw [if_neg heq, hfc] at this
          rw [itemCount]
          simp only
          omega
    · show ((hDel st.hangar _).map Prod.fst).Nodup
      refine List.Nodup.sublist ?_ hI.hangar_keys
      exact List.Sublist.map _ (List.filter_sublist _)
    · intro kv hkv
      exact hI.hangar_vals kv (List.mem_of_mem_filter hkv)
  · have hdw : ∀ l : List (String × List (Nat × Nat)),
        hangSum (fun l2 => (l2.map (wt g)).sum) st.hangar =
        ((hGet st.hangar (g.rules.getD r default).lhs).map (wt g)).sum +
          hangSum (fun l2 => (l2.map (wt g)).sum)
            (hDel st.hangar (g.rules.getD r default).lhs) :=
      fun _ => hangSum_decompose _ (by simp) st.hangar _ hI.hangar_keys
    rw [measureW, measureW, hw]
    simp only [List.map_cons, List.sum_cons, List.map_append, List.sum_append]
    rw [hdw []]
    have hwt1 : wt g (r, p) = 1 := by
      rw [wt, rlen, ← hp]
      omega
    rw [hwt1]
    have hrev : ((hGet st.hangar (g.rules.getD r default).lhs).reverse.map
        (wt g)).sum = ((hGet st.hangar (g.rules.getD r default).lhs).map
          (wt g)).sum := sumW_reverse g _
    rw [hrev]
    omega

/-- Preservation through a finishing pop with nothing parked on the
lhs. -/
lemma wstep_finish_norel {g : CFG} {st : FState} {r p : Nat}
    {rest : List (Nat × Nat)} (hI : WInv g st) (hw : st.work = (r, p) :: rest)
    (hp : p = (g.rules.getD r default).rhs.length)
    (hrel : ¬ hGet st.hangar (g.rules.getD r default).lhs ≠ []) :
    WInv g (fStep g st) ∧ measureW g (fStep g st) + 1 = measureW g st := by
  obtain ⟨hrN, hple, hpre, hedg, hcrest, hchang⟩ := pop_facts hI hw
  have hNl : Nullable g (g.rules.getD r default).lhs :=
    finish_nullable hI hrN hp hpre
  have hempty : hGet st.hangar (g.rules.getD r default).lhs = [] :=
    not_not.mp hrel
  rw [fStep_finish_norel hw hp hrel]
  have hcnt : ∀ r'' : Nat, itemCount st r'' =
      (if r = r'' then 1 else 0) +
      (countR r'' rest + hangSum (countR r'') st.hangar) := by
    intro r''
    rw [itemCount, hw, countR_cons]
    simp only
    omega
  constructor
  · refine ⟨?_, hI.first_base, hI.first_none, hI.first_sound, ?_, ?_,
      hI.hangar_keys, hI.hangar_vals⟩
    · intro s hs
      rcases Finset.mem_insert.mp hs with hs | hs
      · subst hs; exact hNl
      · exact hI.eps_sound s hs
    · intro it hit
      rw [allItems] at hit
      rcases List.mem_append.mp hit with hit | hit
      · refine hI.items_valid it ?_
        rw [allItems, hw]
        exact List.mem_append_left _ (List.mem_cons_of_mem _ hit)
      · exact hI.items_valid it (List.mem_append_right _ hit)
    · intro r'' hr''
      by_cases heq : r = r''
      · subst heq
        refine Or.inr ⟨Finset.mem_insert_self _ _, ?_, ?_⟩
        · have hE : edgesTo g st r (rlen g r) := by
            rw [rlen, ← hp]
            exact hedg
          exact fun p' hp' s hps => hE p' hp' s hps
        · rw [itemCount]
          simp only
          omega
      · rcases hI.token r'' hr'' with ⟨q, hqle, hcount, hedq, hloc⟩ |
          ⟨hfin, hfe, hfc⟩
        · refine Or.inl ⟨q, hqle, ?_, fun p' hp' s hps => hedq p' hp' s hps, ?_⟩
          · have := hcnt r''
            rw [if_neg heq] at this
            rw [itemCount]
            simp only
            omega
          · rcases hloc with ⟨hqw, hqpre⟩ | ⟨y, hq1, hqs, hyeps, hqh, hqpre⟩
            · refine Or.inl ⟨?_, prefixIn_mono (Finset.subset_insert _ _) hqpre⟩
              rw [hw] at hqw
              rcases List.mem_cons.mp hqw with hcontra | hqw
              · exact absurd (congrArg Prod.fst hcontra).symm heq
              · exact hqw
            · have hy : y ≠ (g.rules.getD r default).lhs := by
                intro hcontra
                rw [hcontra, hempty] at hqh
                cases hqh
              refine Or.inr ⟨y, hq1, hqs, ?_, hqh,
                prefixIn_mono (Finset.subset_insert _ _) hqpre⟩
              intro hcontra
              rcases Finset.mem_insert.mp hcontra with hc | hc
              · exact hy hc
              · exact hyeps hc
        · refine Or.inr ⟨Finset.mem_insert_of_mem hfin,
            fun p' hp' s hps => hfe p' hp' s hps, ?_⟩
          have := hcnt r''
          rw [if_neg heq, hfc] at this
          rw [itemCount]
          simp only
          omega
  · rw [measureW, measureW, hw]
    simp only [List.map_cons, List.sum_cons]
    have hwt1 : wt g (r, p) = 1 := by
      rw [wt, rlen, ← hp]
      omega
    rw [hwt1]
    omega

/-- Preservation through an advancing pop (`rhs[p]` already nullable). -/
lemma wstep_advance {g : CFG} (hg : GoodCFG g) {st : FState} {r p : Nat}
    {rest : List (Nat × Nat)} (hI : WInv g st) (hw : st.work = (r, p) :: rest)
    (hp : ¬ p = (g.rules.getD r default).rhs.length)
    (hin : (g.rules.getD r default).rhs.getD p "" ∈ st.epsilon) :
    WInv g (fStep g st) ∧ measureW g (fStep g st) + 1 = measureW g st := by
  obtain ⟨hrN, hple, hpre, hedg, hcrest, hchang⟩ := pop_facts hI hw
  have hplen : p < rlen g r := by
    have hple' : p ≤ (g.rules.getD r default).rhs.length := hple
    rw [rlen]
    omega
  have hsym : rsym g r p = some ((g.rules.getD r default).rhs.getD p "") :=
    rsym_getD hplen
  have hlhsSym : (g.rules.getD r default).lhs ∈ g.symbols :=
    (hg.1 _ (ruleAt_mem hrN)).1
  rw [fStep_advance hw hp hin]
  have hfmono : ∀ x, st.first x ⊆
      (fun x => if x = (g.rules.getD r default).lhs then
        insert ((g.rules.getD r default).rhs.getD p "")
          (st.first (g.rules.getD r default).lhs)
        else st.first x) x := by
    intro x a ha
    by_cases hx : x = (g.rules.getD r default).lhs
    · subst hx
      simp only [if_pos rfl]
      exact Finset.mem_insert_of_mem ha
    · simp only [if_neg hx]
      exact ha
  constructor
  · refine ⟨hI.eps_sound, ?_, ?_, ?_, ?_, ?_, hI.hangar_keys, hI.hangar_vals⟩
    · intro x hx
      exact hfmono x (hI.first_base x hx)
    · intro x hx
      have hxne : x ≠ (g.rules.getD r default).lhs := fun hc => hx (hc ▸ hlhsSym)
      show (if x = _ then _ else st.first x) = ∅
      rw [if_neg hxne]
      exact hI.first_none x hx
    · intro x y hy
      show (y = x ∧ x ∈ g.symbols) ∨ edgeSpec g x y
      by_cases hx : x = (g.rules.getD r default).lhs
      · subst hx
        simp only [if_pos rfl] at hy
        rcases Finset.mem_insert.mp hy with hy | hy
        · subst hy
          refine Or.inr ⟨g.rules.getD r default, ruleAt_mem hrN, rfl, p,
            hsym, ?_⟩
          intro i hi s his
          exact hI.eps_sound s (hpre i (by omega) s his)
        · exact hI.first_sound _ y hy
      · simp only [if_neg hx] at hy
        exact hI.first_sound x y hy
    · intro it hit
      rw [allItems] at hit
      rcases List.mem_append.mp hit with hit | hit
      · rcases List.mem_cons.mp hit with hit | hit
        · subst hit
          refine ⟨hrN, ?_⟩
          show p + 1 ≤ rlen g r
          omega
        · refine hI.items_valid it ?_
          rw [allItems, hw]
          exact List.mem_append_left _ (List.mem_cons_of_mem _ hit)
      · exact hI.items_valid it (List.mem_append_right _ hit)
    · intro r'' hr''
      by_cases heq : r = r''
      · subst heq
        refine Or.inl ⟨p + 1, by omega, ?_, ?_, Or.inl ⟨by simp, ?_⟩⟩
        · rw [itemCount, countR_cons]
          simp [hcrest, hchang]
        · intro p' hp' s hps
          by_cases hpp : p' < p
          · exact hfmono _ (hedg p' hpp s hps)
          · have hpeq : p' = p := by omega
            subst hpeq
            rw [hsym] at hps
            rw [← Option.some.inj hps]
            show _ ∈ (fun x => if x = (g.rules.getD r default).lhs then
              insert ((g.rules.getD r default).rhs.getD _ "")
                (st.first (g.rules.getD r default).lhs)
              else st.first x) (rlhs g r)
            simp only [rlhs]
            simp
        · intro i hi s his
          by_cases hip : i < p
          · exact hpre i hip s his
          · have : i = p := by omega
            subst this
            rw [hsym] at his
            rw [← Option.some.inj his]
            exact hin
      · rcases hI.token r'' hr'' with ⟨q, hqle, hcount, hedq, hloc⟩ |
          ⟨hfin, hfe, hfc⟩
        · refine Or.inl ⟨q, hqle, ?_, edgesTo_mono hfmono hedq, ?_⟩
          · rw [itemCount, countR_cons]
            simp only
            rw [if_neg heq]
            have := hcount
            rw [itemCount, hw, countR_cons] at this
            simp only at this
            rw [if_neg heq] at this
            omega
          · rcases hloc with ⟨hqw, hqpre⟩ | ⟨y, hq1, hqs, hyeps, hqh, hqpre⟩
            · refine Or.inl ⟨?_, hqpre⟩
              rw [hw] at hqw
              rcases List.mem_cons.mp hqw with hcontra | hqw
              · exact absurd (congrArg Prod.fst hcontra).symm heq
              · exact List.mem_cons_of_mem _ hqw
            · exact Or.inr ⟨y, hq1, hqs, hyeps, hqh, hqpre⟩
        · refine Or.inr ⟨hfin, edgesTo_mono hfmono hfe, ?_⟩
          rw [itemCount, countR_cons]
          simp only
          rw [if_neg heq]
          have := hfc
          rw [itemCount, hw, countR_cons] at this
          simp only at this
          rw [if_neg heq] at this
          omega
  · rw [measureW, measureW, hw]
    simp only [List.map_cons, List.sum_cons]
    have hwt : wt g (r, p + 1) + 1 = wt g (r, p) := by
      rw [wt, wt]
      simp only
      rw [rlen] at hplen
      omega
    omega

/-- Preservation through a parking pop (`rhs[p]` not yet nullable). -/
lemma wstep_hang {g : CFG} (hg : GoodCFG g) {st : FState} {r p : Nat}
    {rest : List (Nat × Nat)} (hI : WInv g st) (hw : st.work = (r, p) :: rest)
    (hp : ¬ p = (g.rules.getD r default).rhs.length)
    (hin : ¬ (g.rules.getD r default).rhs.getD p "" ∈ st.epsilon) :
    WInv g (fStep g st) ∧ measureW g (fStep g st) + 1 = measureW g st := by
  obtain ⟨hrN, hple, hpre, hedg, hcrest, hchang⟩ := pop_facts hI hw
  have hplen : p < rlen g r := by
    have hple' : p ≤ (g.rules.getD r default).rhs.length := hple
    rw [rlen]
    omega
  have hsym : rsym g r p = some ((g.rules.getD r default).rhs.getD p "") :=
    rsym_getD hplen
  have hlhsSym : (g.rules.getD r default).lhs ∈ g.symbols :=
    (hg.1 _ (ruleAt_mem hrN)).1
  rw [fStep_hang hw hp hin]
  have hfmono : ∀ x, st.first x ⊆
      (fun x => if x = (g.rules.getD r default).lhs then
        insert ((g.rules.getD r default).rhs.getD p "")
          (st.first (g.rules.getD r default).lhs)
        else st.first x) x := by
    intro x a ha
    by_cases hx : x = (g.rules.getD r default).lhs
    · subst hx
      simp only [if_pos rfl]
      exact Finset.mem_insert_of_mem ha
    · simp only [if_neg hx]
      exact ha
  have hcnt : ∀ r'' : Nat,
      hangSum (countR r'') (aset st.hangar ((g.rules.getD r default).rhs.getD p "")
        (hGet st.hangar ((g.rules.getD r default).rhs.getD p "") ++ [(r, p + 1)])) =
      hangSum (countR r'') st.hangar + (if r = r'' then 1 else 0) := by
    intro r''
    rw [hangSum_aset (countR r'') (countR_append r'') st.hangar]
    congr 1
    rw [countR_cons]
    simp only [countR]
    by_cases hrr : r = r'' <;> simp [hrr]
  constructor
  · refine ⟨hI.eps_sound, ?_, ?_, ?_, ?_, ?_, ?_, ?_⟩
    · intro x hx
      exact hfmono x (hI.first_base x hx)
    · intro x hx
      have hxne : x ≠ (g.rules.getD r default).lhs := fun hc => hx (hc ▸ hlhsSym)
      show (if x = _ then _ else st.first x) = ∅
      rw [if_neg hxne]
      exact hI.first_none x hx
    · intro x y hy
      show (y = x ∧ x ∈ g.symbols) ∨ edgeSpec g x y
      by_cases hx : x = (g.rules.getD r default).lhs
      · subst hx
        simp only [if_pos rfl] at hy
        rcases Finset.mem_insert.mp hy with hy | hy
        · subst hy
          refine Or.inr ⟨g.rules.getD r default, ruleAt_mem hrN, rfl, p,
            hsym, ?_⟩
          intro i hi s his
          exact hI.eps_sound s (hpre i (by omega) s his)
        · exact hI.first_sound _ y hy
      · simp only [if_neg hx] at hy
        exact hI.first_sound x y hy
    · intro it hit
      rw [allItems] at hit
      rcases List.mem_append.mp hit with hit | hit
      · refine hI.items_valid it ?_
        rw [allItems, hw]
        exact List.mem_append_left _ (List.mem_cons_of_mem _ hit)
      · rw [hangItems, List.mem_flatten] at hit
        obtain ⟨L, hL, hitL⟩ := hit
        obtain ⟨kv, hkv, hkvL⟩ := List.mem_map.mp hL
        rcases mem_aset hkv with hkv | hkv
        · subst hkv
          rw [← hkvL] at hitL
          rcases List.mem_append.mp hitL with hitL | hitL
          · exact hI.items_valid it
              (List.mem_append_right _ (mem_hangItems hitL))
          · rcases List.mem_cons.mp hitL with hitL | hitL
            · subst hitL
              refine ⟨hrN, ?_⟩
              show p + 1 ≤ rlen g r
              omega
            · cases hitL
        · refine hI.items_valid it (List.mem_append_right _ ?_)
          rw [hangItems, List.mem_flatten]
          exact ⟨L, List.mem_map.mpr ⟨kv, hkv, hkvL⟩, hitL⟩
    · intro r'' hr''
      by_cases heq : r = r''
      · subst heq
        refine Or.inl ⟨p + 1, by omega, ?_, ?_,
          Or.inr ⟨(g.rules.getD r default).rhs.getD p "", by omega, ?_, hin, ?_, ?_⟩⟩
        · rw [itemCount]
          simp only
          rw [hcnt r, if_pos rfl]
          omega
        · intro p' hp' s hps
          by_cases hpp : p' < p
          · exact hfmono _ (hedg p' hpp s hps)
          · have hpeq : p' = p := by omega
            subst hpeq
            rw [hsym] at hps
            rw [← Option.some.inj hps]
            show _ ∈ (fun x => if x = (g.rules.getD r default).lhs then
              insert ((g.rules.getD r default).rhs.getD _ "")
                (st.first (g.rules.getD r default).lhs)
              else st.first x) (rlhs g r)
            simp only [rlhs]
            simp
        · show rsym g r (p + 1 - 1) = _
          simpa using hsym
        · rw [hGet_aset_self]
          exact List.mem_append_right _ (by simp)
        · show prefixIn g st.epsilon r (p + 1 - 1)
          simpa using hpre
      · rcases hI.token r'' hr'' with ⟨q, hqle, hcount, hedq, hloc⟩ |
          ⟨hfin, hfe, hfc⟩
        · refine Or.inl ⟨q, hqle, ?_, edgesTo_mono hfmono hedq, ?_⟩
          · rw [itemCount]
            simp only
            rw [hcnt r'', if_neg heq]
            have := hcount
            rw [itemCount, hw, countR_cons] at this
            simp only at this
            rw [if_neg heq] at this
            omega
          · rcases hloc with ⟨hqw, hqpre⟩ | ⟨y, hq1, hqs, hyeps, hqh, hqpre⟩
            · refine Or.inl ⟨?_, hqpre⟩
              rw [hw] at hqw
              rcases List.mem_cons.mp hqw with hcontra | hqw
              · exact absurd (congrArg Prod.fst hcontra).symm heq
              · exact hqw
            · refine Or.inr ⟨y, hq1, hqs, hyeps, ?_, hqpre⟩
              by_cases hysym : y = (g.rules.getD r default).rhs.getD p ""
              · subst hysym
                rw [hGet_aset_self]
                exact List.mem_append_left _ hqh
              · rw [hGet_aset_ne _ _ _ _ hysym]
                exact hqh
        · refine Or.inr ⟨hfin, edgesTo_mono hfmono hfe, ?_⟩
          rw [itemCount]
          simp only
          rw [hcnt r'', if_neg heq]
          have := hfc
          rw [itemCount, hw, countR_cons] at this
          simp only at this
          rw [if_neg heq] at this
          omega
    · exact nodup_aset hI.hangar_keys
    · intro kv hkv
      rcases mem_aset hkv with hkv | hkv
      · rw [hkv]
        simp
      · exact hI.hangar_vals kv hkv
  · rw [measureW, measureW, hw]
    simp only [List.map_cons, List.sum_cons]
    rw [hangSum_aset _ (sumW_append g) st.hangar]
    have hwt : (([(r, p + 1)]).map (wt g)).sum + 1 = wt g (r, p) := by
      simp only [List.map_cons, List.map_nil, List.sum_cons, List.sum_nil]
      rw [wt, wt]
      simp only
      rw [rlen] at hplen
      omega
    omega

lemma wInv_fStep {g : CFG} (hg : GoodCFG g) {st : FState} (hI : WInv g st)
    (hne : st.work ≠ []) :
    WInv g (fStep g st) ∧ measureW g (fStep g st) + 1 = measureW g st := by
  obtain ⟨⟨r, p⟩, rest, hw⟩ : ∃ it rest, st.work = it :: rest := by
    cases h : st.work with
    | nil => exact absurd h hne
    | cons a l => exact ⟨a, l, rfl⟩
  by_cases hp : p = (g.rules.getD r default).rhs.length
  · by_cases hrel : hGet st.hangar (g.rules.getD r default).lhs ≠ []
    · exact wstep_finish_rel hI hw hp hrel
    · exact wstep_finish_norel hI hw hp hrel
  · by_cases hin : (g.rules.getD r default).rhs.getD p "" ∈ st.epsilon
    · exact wstep_advance hg hI hw hp hin
    · exact wstep_hang hg hI hw hp hin

lemma wInv_fLoop {g : CFG} (hg : GoodCFG g) :
    ∀ (n : Nat) (st : FState), WInv g st → measureW g st ≤ n →
      WInv g (fLoop g n st) ∧ (fLoop g n st).work = [] := by
  intro n
  induction n with
  | zero =>
      intro st hI hM
      rw [fLoop]
      refine ⟨hI, ?_⟩
      cases hw : st.work with
      | nil => rfl
      | cons it rest =>
          exfalso
          have hv := hI.items_valid it
            (by rw [allItems, hw]; exact List.mem_append_left _ (by simp))
          have hwt : 1 ≤ wt g it := by rw [wt]; omega
          have hone : 1 ≤ measureW g st := by
            rw [measureW, hw]
            simp only [List.map_cons, List.sum_cons]
            omega
          omega
  | succ n ih =>
      intro st hI hM
      rw [fLoop]
      by_cases hne : st.work = []
      · rw [if_pos hne]
        exact ⟨hI, hne⟩
      · rw [if_neg hne]
        obtain ⟨hI', hM'⟩ := wInv_fStep hg hI hne
        exact ih (fStep g st) hI' (by omega)

/-- After the worklist drains, every nullable symbol has been marked. -/
lemma final_nullable_mem {g : CFG} {st : FState} (hI : WInv g st)
    (hwork : st.work = []) : ∀ x, Nullable g x → x ∈ st.epsilon := by
  intro x hx
  induction hx with
  | mk r hr hall ih =>
      obtain ⟨j, hj⟩ := List.getElem?_of_mem hr
      have hjN : j < g.rules.length := getElem?_lt _ _ _ hj
      have hgetD : g.rules.getD j default = r := by
        rw [List.getD_eq_getElem?_getD, hj]
        rfl
      rcases hI.token j hjN with ⟨q, hqle, hcount, hedq, hloc⟩ | ⟨hfin, _, _⟩
      · exfalso
        rcases hloc with ⟨hqw, _⟩ | ⟨y, hq1, hqs, hyeps, hqh, _⟩
        · rw [hwork] at hqw
          cases hqw
        · have hymem : y ∈ r.rhs := by
            have := rsym_mem hqs
            rw [hgetD] at this
            exact this
          exact hyeps (ih y hymem)
      · have : rlhs g j = r.lhs := by rw [rlhs, hgetD]
        rw [this] at hfin
        exact hfin

/-- After the worklist drains, every FIRST dependency edge has been
merged. -/
lemma final_edge_mem {g : CFG} {st : FState} (hI : WInv g st)
    (hwork : st.work = []) {x y : String} (he : edgeSpec g x y) :
    y ∈ st.first x := by
  obtain ⟨r, hr, hlhs, p, hp, hpre⟩ := he
  obtain ⟨j, hj⟩ := List.getElem?_of_mem hr
  have hjN : j < g.rules.length := getElem?_lt _ _ _ hj
  have hgetD : g.rules.getD j default = r := by
    rw [List.getD_eq_getElem?_getD, hj]
    rfl
  have hrsym : ∀ i : Nat, rsym g j i = r.rhs[i]? := by
    intro i
    rw [rsym, hgetD]
  have hpreEps : ∀ i, i < p → ∀ s, r.rhs[i]? = some s → s ∈ st.epsilon :=
    fun i hi s his => final_nullable_mem hI hwork s (hpre i hi s his)
  have hplen : p < rlen g j := by
    have := getElem?_lt _ _ _ hp
    rw [rlen, hgetD]
    exact this
  have hlhsj : rlhs g j = x := by rw [rlhs, hgetD, hlhs]
  rcases hI.token j hjN with ⟨q, hqle, hcount, hedq, hloc⟩ | ⟨_, hfe, _⟩
  · rcases hloc with ⟨hqw, _⟩ | ⟨y', hq1, hqs, hyeps, hqh, _⟩
    · rw [hwork] at hqw
      cases hqw
    · have hplt : p < q := by
        by_contra hcon
        have hq1p : q - 1 < p := by omega
        refine hyeps (hpreEps (q - 1) hq1p y' ?_)
        rw [← hrsym]
        exact hqs
      have := hedq p (by omega) y (by rw [hrsym]; exact hp)
      rw [hlhsj] at this
      exact this
  · have := hfe p hplen y (by rw [hrsym]; exact hp)
    rw [hlhsj] at this
    exact this

/-- The drained state of the worklist loop. -/
lemma worklist_final (g : CFG) (hg : GoodCFG g) :
    WInv g (fLoop g (fFuel g) (fInit g)) ∧
      (fLoop g (fFuel g) (fInit g)).work = [] :=
  wInv_fLoop hg (fFuel g) (fInit g) (wInv_init g) (by rw [measureW_init])

/-- Exact characterization of the nullable set the worklist computes. -/
lemma final_eps_iff {g : CFG} {st : FState} (hI : WInv g st)
    (hwork : st.work = []) (x : String) :
    x ∈ st.epsilon ↔ Nullable g x :=
  ⟨hI.eps_sound x, final_nullable_mem hI hwork x⟩

/-- Exact characterization of the pre-closure FIRST mapping the worklist
computes: each symbol's own name plus its FIRST dependency successors. -/
lemma final_first_iff {g : CFG} {st : FState} (hI : WInv g st)
    (hwork : st.work = []) (x y : String) :
    y ∈ st.first x ↔ ((y = x ∧ x ∈ g.symbols) ∨ edgeSpec g x y) := by
  constructor
  · exact hI.first_sound x y
  · rintro (⟨hyx, hxs⟩ | he)
    · subst hyx
      exact hI.first_base _ hxs
    · exact final_edge_mem hI hwork he

lemma firstSpec_iff_derives {g : CFG} (x t : String) :
    FirstSpec g x t ↔ ∃ γ, Derives g [x] (t :: γ) := by
  constructor
  · exact firstSpec_derives
  · rintro ⟨γ, h⟩
    obtain ⟨i, s, his, _, hfs⟩ := derives_first_aux [x] h
    cases i with
    | zero =>
        have : s = x := by
          rw [List.getElem?_cons_zero] at his
          exact (Option.some.inj his).symm
        subst this
        exact hfs
    | succ n =>
        rw [List.getElem?_cons_succ] at his
        simp at his

/-! ### Saturation of the bounded reachability iteration -/

lemma subset_reachStep (adj : String → Finset String) (R : Finset String) :
    R ⊆ reachStep adj R :=
  Finset.subset_union_left

lemma reachN_mono_step (adj : String → Finset String) (n : Nat)
    (R : Finset String) :
    (reachStep adj)^[n] R ⊆ (reachStep adj)^[n + 1] R := by
  rw [Function.iterate_succ_apply']
  exact subset_reachStep adj _

lemma reachN_le_mono (adj : String → Finset String) {m n : Nat} (h : m ≤ n)
    (R : Finset String) : (reachStep adj)^[m] R ⊆ (reachStep adj)^[n] R := by
  induction h with
  | refl => exact subset_rfl
  | step h' ih => exact ih.trans (reachN_mono_step adj _ R)

lemma reachN_subset (adj : String → Finset String) {F : Finset String}
    (hadj : ∀ x ∈ F, adj x ⊆ F) {R : Finset String} (hR : R ⊆ F) (n : Nat) :
    (reachStep adj)^[n] R ⊆ F := by
  induction n with
  | zero => exact hR
  | succ n ih =>
      rw [Function.iterate_succ_apply']
      intro t ht
      simp only [reachStep, Finset.mem_union, Finset.mem_biUnion] at ht
      rcases ht with ht | ⟨u, hu, htu⟩
      · exact ih ht
      · exact hadj u (ih hu) htu

lemma reach_fix_stable (adj : String → Finset String) {R : Finset String}
    {n : Nat} (h : (reachStep adj)^[n + 1] R = (reachStep adj)^[n] R) :
    ∀ m, n ≤ m → (reachStep adj)^[m] R = (reachStep adj)^[n] R := by
  intro m hm
  induction hm with
  | refl => rfl
  | step hle ih =>
      rw [Function.iterate_succ_apply', ih]
      have he := Function.iterate_succ_apply' (reachStep adj) n R
      rw [← he, h]

lemma reach_saturates (adj : String → Finset String) {F : Finset String}
    (hadj : ∀ x ∈ F, adj x ⊆ F) {s : String} (hs : s ∈ F) {bound : Nat}
    (hbound : F.card ≤ bound) :
    reachStep adj (reachSet bound adj s) = reachSet bound adj s := by
  by_cases hex :
      ∃ k, k < bound ∧ (reachStep adj)^[k + 1] ({s} : Finset String) =
        (reachStep adj)^[k] ({s} : Finset String)
  · obtain ⟨k, hk, hfix⟩ := hex
    have h1 := reach_fix_stable adj hfix bound (by omega)
    have h2 := reach_fix_stable adj hfix (bound + 1) (by omega)
    show reachStep adj ((reachStep adj)^[bound] {s}) = (reachStep adj)^[bound] {s}
    have he := Function.iterate_succ_apply' (reachStep adj) bound ({s} : Finset String)
    rw [← he, h2, h1]
  · push_neg at hex
    exfalso
    have hgrow : ∀ k, k ≤ bound →
        k + 1 ≤ ((reachStep adj)^[k] ({s} : Finset String)).card := by
      intro k
      induction k with
      | zero => intro _; simp
      | succ k ih =>
          intro hk
          have hsub := reachN_mono_step adj k ({s} : Finset String)
          have hne := hex k (by omega)
          have hss : (reachStep adj)^[k] ({s} : Finset String) ⊂
              (reachStep adj)^[k + 1] ({s} : Finset String) :=
            Finset.ssubset_iff_subset_ne.mpr ⟨hsub, fun he => hne he.symm⟩
          have h2 := Finset.card_lt_card hss
          have h3 := ih (by omega)
          omega
    have h4 : (reachStep adj)^[bound] ({s} : Finset String) ⊆ F :=
      reachN_subset adj hadj (Finset.singleton_subset_iff.mpr hs) bound
    have h5 := Finset.card_le_card h4
    have h6 := hgrow bound le_rfl
    omega

lemma reachN_sound (adj : String → Finset String) :
    ∀ (n : Nat) (R : Finset String) (t : String), t ∈ (reachStep adj)^[n] R →
      ∃ u ∈ R, Relation.ReflTransGen (adjRel adj) u t := by
  intro n
  induction n with
  | zero => intro R t ht; exact ⟨t, ht, Relation.ReflTransGen.refl⟩
  | succ n ih =>
      intro R t ht
      rw [Function.iterate_succ_apply'] at ht
      simp only [reachStep, Finset.mem_union, Finset.mem_biUnion] at ht
      rcases ht with ht | ⟨u, hu, htu⟩
      · exact ih R t ht
      · obtain ⟨v, hv, hvu⟩ := ih R u hu
        exact ⟨v, hv, hvu.tail htu⟩

lemma self_mem_reachSet (adj : String → Finset String) (bound : Nat)
    (s : String) : s ∈ reachSet bound adj s := by
  have h0 : s ∈ (reachStep adj)^[0] ({s} : Finset String) := by simp
  exact reachN_le_mono adj (Nat.zero_le bound) {s} h0

lemma mem_reachSet_iff (adj : String → Finset String) {F : Finset String}
    (hadj : ∀ x ∈ F, adj x ⊆ F) {s : String} (hs : s ∈ F) {bound : Nat}
    (hbound : F.card ≤ bound) (t : String) :
    t ∈ reachSet bound adj s ↔ Relation.ReflTransGen (adjRel adj) s t := by
  constructor
  · intro ht
    obtain ⟨u, hu, hut⟩ := reachN_sound adj bound {s} t ht
    rw [Finset.mem_singleton] at hu
    subst hu
    exact hut
  · intro h
    induction h with
    | refl => exact self_mem_reachSet adj bound s
    | @tail b c hab hbc ih =>
        have hsat := reach_saturates adj hadj hs hbound
        have hmem : c ∈ reachStep adj (reachSet bound adj s) := by
          simp only [reachStep, Finset.mem_union, Finset.mem_biUnion]
          exact Or.inr ⟨b, ih, hbc⟩
        rwa [hsat] at hmem

lemma reachSet_subset (adj : String → Finset String) {F : Finset String}
    (hadj : ∀ x ∈ F, adj x ⊆ F) {s : String} (hs : s ∈ F) (bound : Nat) :
    reachSet bound adj s ⊆ F :=
  reachN_subset adj hadj (Finset.singleton_subset_iff.mpr hs) bound

lemma reach_edge (adj : String → Finset String) {F : Finset String}
    (hadj : ∀ x ∈ F, adj x ⊆ F) {s : String} (hs : s ∈ F) {bound : Nat}
    (hbound : F.card ≤ bound) {y : String} (hy : y ∈ adj s) :
    y ∈ reachSet bound adj s :=
  (mem_reachSet_iff adj hadj hs hbound y).mpr (Relation.ReflTransGen.single hy)

lemma reach_trans (adj : String → Finset String) {F : Finset String}
    (hadj : ∀ x ∈ F, adj x ⊆ F) {a b : String} (ha : a ∈ F) (hb : b ∈ F)
    {bound : Nat} (hbound : F.card ≤ bound) {c : String}
    (h1 : b ∈ reachSet bound adj a) (h2 : c ∈ reachSet bound adj b) :
    c ∈ reachSet bound adj a :=
  (mem_reachSet_iff adj hadj ha hbound c).mpr
    (((mem_reachSet_iff adj hadj ha hbound b).mp h1).trans
      ((mem_reachSet_iff adj hadj hb hbound c).mp h2))

lemma reachSet_eq_of_mut (adj : String → Finset String) {F : Finset String}
    (hadj : ∀ x ∈ F, adj x ⊆ F) {a b : String} (ha : a ∈ F) (hb : b ∈ F)
    {bound : Nat} (hbound : F.card ≤ bound)
    (h1 : b ∈ reachSet bound adj a) (h2 : a ∈ reachSet bound adj b) :
    reachSet bound adj a = reachSet bound adj b := by
  apply Finset.Subset.antisymm
  · intro c hc
    exact reach_trans adj hadj hb ha hbound h2 hc
  · intro c hc
    exact reach_trans adj hadj ha hb hbound h1 hc

/-- Any walk out of a set of symbols decomposes: either it never leaves the
set, or it has a first edge out, from a member to a non-member, from which
the target is still reachable. -/
lemma rtc_exit (adj : String → Finset String) (C : List String) {s t : String}
    (hs : s ∈ C) (h : Relation.ReflTransGen (adjRel adj) s t) :
    t ∈ C ∨ ∃ m ∈ C, ∃ x, x ∈ adj m ∧ x ∉ C ∧
      Relation.ReflTransGen (adjRel adj) x t := by
  induction h with
  | refl => exact Or.inl hs
  | @tail b c hab hbc ih =>
      rcases ih with hb | ⟨m, hm, x, hx, hxC, hxb⟩
      · by_cases hc : c ∈ C
        · exact Or.inl hc
        · exact Or.inr ⟨b, hb, c, hbc, hc, Relation.ReflTransGen.refl⟩
      · exact Or.inr ⟨m, hm, x, hx, hxC, hxb.tail hbc⟩

/-! ### Properties of the component construction -/

lemma mem_sccOf_iff (bound : Nat) (adj : String → Finset String)
    (nodes : List String) (s t : String) :
    t ∈ sccOf bound adj nodes s ↔
      t ∈ nodes ∧ t ∈ reachSet bound adj s ∧ s ∈ reachSet bound adj t := by
  simp [sccOf, List.mem_filter, and_assoc]

lemma sccOf_self_mem (bound : Nat) (adj : String → Finset String)
    (nodes : List String) {s : String} (hs : s ∈ nodes) :
    s ∈ sccOf bound adj nodes s :=
  (mem_sccOf_iff bound adj nodes s s).mpr
    ⟨hs, self_mem_reachSet adj bound s, self_mem_reachSet adj bound s⟩

lemma sccOf_subset_nodes (bound : Nat) (adj : String → Finset String)
    (nodes : List String) (s : String) {t : String}
    (h : t ∈ sccOf bound adj nodes s) : t ∈ nodes :=
  ((mem_sccOf_iff bound adj nodes s t).mp h).1

lemma sccOf_nodup (bound : Nat) (adj : String → Finset String)
    {nodes : List String} (h : nodes.Nodup) (s : String) :
    (sccOf bound adj nodes s).Nodup :=
  h.filter _

lemma sccGroups_acc_mono (bound : Nat) (adj : String → Finset String)
    (nodes : List String) :
    ∀ (l : List String) (acc : List (List String)) (C : List String), C ∈ acc →
      C ∈ l.foldl
        (fun comps s =>
          if comps.any (fun D => decide (s ∈ D)) then comps
          else comps ++ [sccOf bound adj nodes s]) acc := by
  intro l
  induction l with
  | nil => intro acc C h; exact h
  | cons s l ih =>
      intro acc C h
      simp only [List.foldl_cons]
      by_cases hg : acc.any (fun D => decide (s ∈ D)) = true
      · rw [if_pos hg]; exact ih acc C h
      · rw [if_neg hg]; exact ih _ C (List.mem_append_left _ h)

lemma sccGroups_shape_aux (bound : Nat) (adj : String → Finset String)
    (nodes : List String) :
    ∀ (l : List String) (acc : List (List String)),
      (∀ s ∈ l, s ∈ nodes) →
      (∀ C ∈ acc, ∃ a, a ∈ nodes ∧ C = sccOf bound adj nodes a) →
      ∀ C ∈ l.foldl
          (fun comps s =>
            if comps.any (fun D => decide (s ∈ D)) then comps
            else comps ++ [sccOf bound adj nodes s]) acc,
        ∃ a, a ∈ nodes ∧ C = sccOf bound adj nodes a := by
  intro l
  induction l with
  | nil => intro acc _ hacc C hC; exact hacc C hC
  | cons s l ih =>
      intro acc hl hacc C hC
      simp only [List.foldl_cons] at hC
      by_cases hg : acc.any (fun D => decide (s ∈ D)) = true
      · rw [if_pos hg] at hC
        exact ih acc (fun u hu => hl u (List.mem_cons_of_mem s hu)) hacc C hC
      · rw [if_neg hg] at hC
        refine ih _ (fun u hu => hl u (List.mem_cons_of_mem s hu)) ?_ C hC
        intro D hD
        rcases List.mem_append.mp hD with hD | hD
        · exact hacc D hD
        · rw [List.mem_singleton] at hD
          exact ⟨s, hl s (List.mem_cons_self s l), hD⟩

lemma sccGroups_covers_aux (bound : Nat) (adj : String → Finset String)
    (nodes : List String) :
    ∀ (l : List String) (acc : List (List String)),
      (∀ s ∈ l, s ∈ nodes) →
      ∀ s ∈ l, ∃ C, C ∈ l.foldl
          (fun comps u =>
            if comps.any (fun D => decide (u ∈ D)) then comps
            else comps ++ [sccOf bound adj nodes u]) acc ∧ s ∈ C := by
  intro l
  induction l with
  | nil => intro acc _ s hs; cases hs
  | cons u l ih =>
      intro acc hl s hs
      simp only [List.foldl_cons]
      rcases List.mem_cons.mp hs with rfl | hs
      · by_cases hg : acc.any (fun D => decide (s ∈ D)) = true
        · rw [if_pos hg]
          obtain ⟨C, hC, hsC⟩ := List.any_eq_true.mp hg
          rw [decide_eq_true_eq] at hsC
          exact ⟨C, sccGroups_acc_mono bound adj nodes l acc C hC, hsC⟩
        · rw [if_neg hg]
          refine ⟨sccOf bound adj nodes s, ?_, ?_⟩
          · exact sccGroups_acc_mono bound adj nodes l _ _
              (List.mem_append_right _ (List.mem_singleton_self _))
          · exact sccOf_self_mem bound adj nodes (hl s (List.mem_cons_self s l))
      · by_cases hg : acc.any (fun D => decide (u ∈ D)) = true
        · rw [if_pos hg]
          exact ih acc (fun v hv => hl v (List.mem_cons_of_mem u hv)) s hs
        · rw [if_neg hg]
          exact ih _ (fun v hv => hl v (List.mem_cons_of_mem u hv)) s hs

lemma sccGroups_disjoint_aux (adj : String → Finset String) {F : Finset String}
    (hadj : ∀ x ∈ F, adj x ⊆ F) {bound : Nat} (hbound : F.card ≤ bound)
    (nodes : List String) (hn : ∀ x ∈ nodes, x ∈ F) :
    ∀ (l : List String) (acc : List (List String)),
      (∀ s ∈ l, s ∈ nodes) →
      (∀ C ∈ acc, ∃ a, a ∈ nodes ∧ C = sccOf bound adj nodes a) →
      acc.Pairwise (fun C D => ∀ x ∈ C, x ∉ D) →
      (l.foldl
          (fun comps s =>
            if comps.any (fun D => decide (s ∈ D)) then comps
            else comps ++ [sccOf bound adj nodes s]) acc).Pairwise
        (fun C D => ∀ x ∈ C, x ∉ D) := by
  intro l
  induction l with
  | nil => intro acc _ _ hp; exact hp
  | cons s l ih =>
      intro acc hl hacc hp
      simp only [List.foldl_cons]
      by_cases hg : acc.any (fun D => decide (s ∈ D)) = true
      · rw [if_pos hg]
        exact ih acc (fun u hu => hl u (List.mem_cons_of_mem s hu)) hacc hp
      · rw [if_neg hg]
        have hsn : s ∈ nodes := hl s (List.mem_cons_self s l)
        have hsF : s ∈ F := hn s hsn
        refine ih _ (fun u hu => hl u (List.mem_cons_of_mem s hu)) ?_ ?_
        · intro D hD
          rcases List.mem_append.mp hD with hD | hD
          · exact hacc D hD
          · rw [List.mem_singleton] at hD
            exact ⟨s, hsn, hD⟩
        · rw [List.pairwise_append]
          refine ⟨hp, List.pairwise_singleton _ _, ?_⟩
        -- a common member of an accumulated component and the new one would
        -- put the new seed inside the old component, contradicting the guard
          intro C hC D hD x hxC hxD
          rw [List.mem_singleton] at hD
          subst hD
          obtain ⟨a, han, haC⟩ := hacc C hC
          subst haC
          obtain ⟨hxn, hxa1, hxa2⟩ := (mem_sccOf_iff bound adj nodes a x).mp hxC
          obtain ⟨_, hxs1, hxs2⟩ := (mem_sccOf_iff bound adj nodes s x).mp hxD
          have haF : a ∈ F := hn a han
          have hxF : x ∈ F := hn x hxn
          have hsa : s ∈ reachSet bound adj a :=
            reach_trans adj hadj haF hxF hbound hxa1 hxs2
          have has : a ∈ reachSet bound adj s :=
            reach_trans adj hadj hsF hxF hbound hxs1 hxa2
          have hsmem : s ∈ sccOf bound adj nodes a :=
            (mem_sccOf_iff bound adj nodes a s).mpr ⟨hsn, hsa, has⟩
          exact absurd (List.any_eq_true.mpr
            ⟨sccOf bound adj nodes a, hC, by simpa using hsmem⟩) hg

lemma sccGroups_shape (bound : Nat) (adj : String → Finset String)
    (nodes : List String) :
    ∀ C ∈ sccGroups bound adj nodes, ∃ a, a ∈ nodes ∧
      C = sccOf bound adj nodes a := by
  intro C hC
  exact sccGroups_shape_aux bound adj nodes nodes [] (fun s h => h)
    (by intro D hD; cases hD) C hC

lemma sccGroups_covers (bound : Nat) (adj : String → Finset String)
    (nodes : List String) :
    ∀ s ∈ nodes, ∃ C, C ∈ sccGroups bound adj nodes ∧ s ∈ C := by
  intro s hs
  exact sccGroups_covers_aux bound adj nodes nodes [] (fun u h => h) s hs

lemma sccGroups_disjoint (adj : String → Finset String) {F : Finset String}
    (hadj : ∀ x ∈ F, adj x ⊆ F) {bound : Nat} (hbound : F.card ≤ bound)
    (nodes : List String) (hn : ∀ x ∈ nodes, x ∈ F) :
    (sccGroups bound adj nodes).Pairwise (fun C D => ∀ x ∈ C, x ∉ D) :=
  sccGroups_disjoint_aux adj hadj hbound nodes hn nodes [] (fun s h => h)
    (by intro D hD; cases hD) (List.Pairwise.nil)

/-! ### The insertion sort of the components -/

lemma insertComp_perm (key : List String → Nat) (C : List String) :
    ∀ (l : List (List String)), List.Perm (insertComp key C l) (C :: l) := by
  intro l
  induction l with
  | nil => simp only [insertComp]; exact List.Perm.refl _
  | cons D rest ih =>
      by_cases h : key C ≤ key D
      · simp only [insertComp, if_pos h]
        exact List.Perm.refl _
      · simp only [insertComp, if_neg h]
        exact (ih.cons D).trans (List.Perm.swap C D rest)

lemma sortComps_perm (key : List String → Nat) :
    ∀ (l : List (List String)), List.Perm (sortComps key l) l := by
  intro l
  induction l with
  | nil => simp only [sortComps]; exact List.Perm.refl _
  | cons C rest ih =>
      simp only [sortComps]
      exact (insertComp_perm key C (sortComps key rest)).trans (ih.cons C)

lemma mem_insertComp (key : List String → Nat) (C : List String)
    (l : List (List String)) {D : List String} :
    D ∈ insertComp key C l ↔ D = C ∨ D ∈ l :=
  ((insertComp_perm key C l).mem_iff).trans List.mem_cons

lemma insertComp_sorted (key : List String → Nat) (C : List String) :
    ∀ (l : List (List String)),
      l.Pairwise (fun X Y => key X ≤ key Y) →
      (insertComp key C l).Pairwise (fun X Y => key X ≤ key Y) := by
  intro l
  induction l with
  | nil => intro _; simp only [insertComp]; exact List.pairwise_singleton _ _
  | cons D rest ih =>
      intro hp
      rw [List.pairwise_cons] at hp
      obtain ⟨hD, hrest⟩ := hp
      by_cases h : key C ≤ key D
      · simp only [insertComp, if_pos h]
        rw [List.pairwise_cons]
        constructor
        · intro Y hY
          rcases List.mem_cons.mp hY with rfl | hY
          · exact h
          · exact h.trans (hD Y hY)
        · rw [List.pairwise_cons]
          exact ⟨hD, hrest⟩
      · simp only [insertComp, if_neg h]
        rw [List.pairwise_cons]
        constructor
        · intro Y hY
          rcases (mem_insertComp key C rest).mp hY with rfl | hY
          · exact le_of_not_le h
          · exact hD Y hY
        · exact ih hrest

lemma sortComps_sorted (key : List String → Nat) :
    ∀ (l : List (List String)),
      (sortComps key l).Pairwise (fun X Y => key X ≤ key Y) := by
  intro l
  induction l with
  | nil => simp only [sortComps]; exact List.Pairwise.nil
  | cons C rest ih =>
      simp only [sortComps]
      exact insertComp_sorted key C _ ih

lemma headD_mem {α : Type} (l : List α) (a : α) (h : l ≠ []) : l.headD a ∈ l := by
  cases l with
  | nil => exact absurd rfl h
  | cons x xs => exact List.mem_cons_self x xs

/-! ### The single-component closure pass -/

lemma compFold_mono (cur : String → Finset String) :
    ∀ (l : List String) (f : Finset String) (done : List String),
      f ⊆ (l.foldl (compFoldStep cur) (f, done)).1 := by
  intro l
  induction l with
  | nil => intro f done; exact subset_rfl
  | cons m l ih =>
      intro f done
      simp only [List.foldl_cons, compFoldStep]
      exact Finset.subset_union_left.trans (ih _ _)

lemma compFold_upper_aux (cur : String → Finset String) (C : List String)
    (T : Finset String) (hT : ∀ m ∈ C, ∀ x ∈ cur m, cur x ⊆ T) :
    ∀ (l : List String) (f : Finset String) (done : List String),
      l.Nodup → (∀ s ∈ l, s ∈ C) → (∀ s ∈ l, s ∉ done) → f ⊆ T →
      (l.foldl (compFoldStep cur) (f, done)).1 ⊆ T := by
  intro l
  induction l with
  | nil => intro f done _ _ _ hf; exact hf
  | cons m l ih =>
      intro f done hnd hlC hld hf
      have hmC : m ∈ C := hlC m (List.mem_cons_self m l)
      have hmd : m ∉ done := hld m (List.mem_cons_self m l)
      rw [List.nodup_cons] at hnd
      simp only [List.foldl_cons]
      apply ih _ _ hnd.2
      · intro s hs; exact hlC s (List.mem_cons_of_mem m hs)
      · intro s hs
        show s ∉ (compFoldStep cur (f, done) m).2
        simp only [compFoldStep, List.mem_cons]
        rintro (rfl | hsd)
        · exact hnd.1 hs
        · exact hld s (List.mem_cons_of_mem m hs) hsd
      · show (compFoldStep cur (f, done) m).1 ⊆ T
        simp only [compFoldStep]
        apply Finset.union_subset hf
        apply Finset.biUnion_subset.mpr
        intro x hx
        rw [compView, if_neg hmd] at hx
        intro y hy
        rw [compView] at hy
        by_cases hxd : x ∈ done
        · rw [if_pos hxd] at hy; exact hf hy
        · rw [if_neg hxd] at hy; exact hT m hmC x hx hy

lemma compFold_upper (cur : String → Finset String) (C : List String)
    (T : Finset String) (hnd : C.Nodup)
    (hT : ∀ m ∈ C, ∀ x ∈ cur m, cur x ⊆ T) :
    compFold cur C ⊆ T :=
  compFold_upper_aux cur C T hT C ∅ [] hnd (fun _ h => h) (by simp)
    (Finset.empty_subset T)

lemma compFold_lower_aux (cur : String → Finset String) (C : List String) :
    ∀ (l : List String) (f : Finset String) (done : List String),
      l.Nodup → (∀ s ∈ l, s ∉ done) → (∀ s ∈ done, s ∈ C) →
      (∀ s ∈ l, s ∈ C) →
      ∀ m ∈ l, ∀ x, x ∈ cur m → (x = m ∨ x ∉ C) →
        cur x ⊆ (l.foldl (compFoldStep cur) (f, done)).1 := by
  intro l
  induction l with
  | nil => intro f done _ _ _ _ m hm; cases hm
  | cons u l ih =>
      intro f done hnd hld hdC hlC m hm x hx hcase
      have hud : u ∉ done := hld u (List.mem_cons_self u l)
      have huC : u ∈ C := hlC u (List.mem_cons_self u l)
      rw [List.nodup_cons] at hnd
      simp only [List.foldl_cons]
      rcases List.mem_cons.mp hm with rfl | hm
      · -- the head's turn adds this very set
        apply Finset.Subset.trans _ (compFold_mono cur l _ _)
        show cur x ⊆ (compFoldStep cur (f, done) m).1
        simp only [compFoldStep]
        have hxd : x ∉ done := by
          rcases hcase with rfl | hxC
          · exact hud
          · intro hxd; exact hxC (hdC x hxd)
        have hvx : compView cur f done x = cur x := by
          rw [compView, if_neg hxd]
        have hvm : compView cur f done m = cur m := by
          rw [compView, if_neg hud]
        refine Finset.Subset.trans ?_ Finset.subset_union_right
        rw [← hvx]
        apply Finset.subset_biUnion_of_mem
        rw [hvm]
        exact hx
      · -- deeper in the list: the invariant survives one step
        apply ih _ _ hnd.2 _ _ (fun s hs => hlC s (List.mem_cons_of_mem u hs))
          m hm x hx hcase
        · intro s hs
          show s ∉ (compFoldStep cur (f, done) u).2
          simp only [compFoldStep, List.mem_cons]
          rintro (rfl | hsd)
          · exact hnd.1 hs
          · exact hld s (List.mem_cons_of_mem u hs) hsd
        · intro s hs
          have hs' : s ∈ (u :: done) := hs
          rcases List.mem_cons.mp hs' with rfl | hsd
          · exact huC
          · exact hdC s hsd

lemma compFold_lower (cur : String → Finset String) (C : List String)
    (hnd : C.Nodup) :
    ∀ m ∈ C, ∀ x, x ∈ cur m → (x = m ∨ x ∉ C) → cur x ⊆ compFold cur C :=
  fun m hm x hx hc =>
    compFold_lower_aux cur C C ∅ [] hnd (by simp) (by simp) (fun _ h => h)
      m hm x hx hc

/-- The value a component's pass computes, before the nonterminal strip is
reapplied: exactly the reachability set of any of its members, given that
every already-processed symbol reads its final (stripped) set and every
unprocessed one its worklist set. -/
lemma comp_value (adj : String → Finset String) {F : Finset String}
    (hadj : ∀ x ∈ F, adj x ⊆ F) (hself : ∀ x ∈ F, x ∈ adj x)
    {bound : Nat} (hbound : F.card ≤ bound) (NT : Finset String)
    (C : List String) (hnd : C.Nodup) (hCF : ∀ m ∈ C, m ∈ F)
    (hmut : ∀ m ∈ C, ∀ m' ∈ C, m' ∈ reachSet bound adj m)
    (cur : String → Finset String)
    (hcur_mem : ∀ m ∈ C, cur m = adj m)
    (hcur_ext : ∀ m ∈ C, ∀ x ∈ adj m, x ∉ C →
      cur x = reachSet bound adj x \ NT)
    {s : String} (hs : s ∈ C) :
    compFold cur C \ NT = reachSet bound adj s \ NT := by
  have hsF : s ∈ F := hCF s hs
  apply Finset.Subset.antisymm
  · -- everything the pass collects is reachable from `s` (or stripped)
    have hup : compFold cur C ⊆ reachSet bound adj s ∪ NT := by
      apply compFold_upper cur C _ hnd
      intro m hm x hx
      rw [hcur_mem m hm] at hx
      have hmF : m ∈ F := hCF m hm
      have hxF : x ∈ F := hadj m hmF hx
      have hsm : m ∈ reachSet bound adj s := hmut s hs m hm
      have hsx : x ∈ reachSet bound adj s :=
        reach_trans adj hadj hsF hmF hbound hsm
          (reach_edge adj hadj hmF hbound hx)
      by_cases hxC : x ∈ C
      · rw [hcur_mem x hxC]
        intro y hy
        exact Finset.mem_union_left _
          (reach_trans adj hadj hsF hxF hbound hsx
            (reach_edge adj hadj hxF hbound hy))
      · rw [hcur_ext m hm x hx hxC]
        intro y hy
        exact Finset.mem_union_left _
          (reach_trans adj hadj hsF hxF hbound hsx (Finset.mem_sdiff.mp hy).1)
    intro t ht
    rw [Finset.mem_sdiff] at ht ⊢
    obtain ⟨ht1, ht2⟩ := ht
    rcases Finset.mem_union.mp (hup ht1) with h | h
    · exact ⟨h, ht2⟩
    · exact absurd h ht2
  · -- every unstripped reachable symbol is collected
    intro t ht
    rw [Finset.mem_sdiff] at ht ⊢
    obtain ⟨ht1, ht2⟩ := ht
    refine ⟨?_, ht2⟩
    have hrtc : Relation.ReflTransGen (adjRel adj) s t :=
      (mem_reachSet_iff adj hadj hsF hbound t).mp ht1
    rcases rtc_exit adj C hs hrtc with htC | ⟨m, hm, x, hx, hxC, hxt⟩
    · have htF : t ∈ F := hCF t htC
      have htcur : t ∈ cur t := by
        rw [hcur_mem t htC]; exact hself t htF
      exact compFold_lower cur C hnd t htC t htcur (Or.inl rfl) htcur
    · have hmF : m ∈ F := hCF m hm
      have hxF : x ∈ F := hadj m hmF hx
      have hxcur : x ∈ cur m := by rw [hcur_mem m hm]; exact hx
      have hmem : t ∈ cur x := by
        rw [hcur_ext m hm x hx hxC, Finset.mem_sdiff]
        exact ⟨(mem_reachSet_iff adj hadj hxF hbound t).mpr hxt, ht2⟩
      exact compFold_lower cur C hnd m hm x hxcur (Or.inr hxC) hmem

/-- The component loop, processed against a fixed well-ordered component
list: afterwards every symbol covered by a component holds its stripped
reachability set, everything else is untouched. -/
lemma comps_fold_aux (adj : String → Finset String) {F : Finset String}
    (hadj : ∀ x ∈ F, adj x ⊆ F) (hself : ∀ x ∈ F, x ∈ adj x)
    {bound : Nat} (hbound : F.card ≤ bound) (NT : Finset String)
    (comps : List (List String))
    (hstruct : ∀ C ∈ comps, C.Nodup ∧ (∀ m ∈ C, m ∈ F) ∧
      (∀ m ∈ C, ∀ m' ∈ C, m' ∈ reachSet bound adj m))
    (hdisj : comps.Pairwise (fun C D => ∀ x ∈ C, x ∉ D))
    (hexit : ∀ (p : List (List String)) (C : List String)
        (q : List (List String)), comps = p ++ C :: q →
        ∀ m ∈ C, ∀ x ∈ adj m, x ∉ C → ∃ D ∈ p, x ∈ D) :
    ∀ (suffix done : List (List String)) (cur : String → Finset String),
      comps = done ++ suffix →
      (∀ x, (∃ D ∈ done, x ∈ D) → cur x = reachSet bound adj x \ NT) →
      (∀ x, (∀ D ∈ done, x ∉ D) → cur x = adj x) →
      ∀ x, (suffix.foldl
          (fun cur2 C =>
            let f := compFold cur2 C \ NT
            fun s => if s ∈ C then f else cur2 s) cur) x =
        if ∃ D ∈ comps, x ∈ D then reachSet bound adj x \ NT else adj x := by
  intro suffix
  induction suffix with
  | nil =>
      intro done cur hcomps hdone hfresh x
      simp only [List.foldl_nil]
      by_cases hx : ∃ D ∈ comps, x ∈ D
      · rw [if_pos hx]
        obtain ⟨D, hD, hxD⟩ := hx
        rw [hcomps, List.append_nil] at hD
        exact hdone x ⟨D, hD, hxD⟩
      · rw [if_neg hx]
        apply hfresh
        intro D hD hxD
        exact hx ⟨D, by rw [hcomps, List.append_nil]; exact hD, hxD⟩
  | cons C rest ih =>
      intro done cur hcomps hdone hfresh x
      simp only [List.foldl_cons]
      have hCmem : C ∈ comps := by
        rw [hcomps]
        exact List.mem_append_right _ (List.mem_cons_self _ _)
      obtain ⟨hCnd, hCF, hCmut⟩ := hstruct C hCmem
      have hCfresh : ∀ m ∈ C, ∀ D ∈ done, m ∉ D := by
        intro m hm D hD hmD
        have hdisj' := hdisj
        rw [hcomps, List.pairwise_append] at hdisj'
        exact hdisj'.2.2 D hD C (List.mem_cons_self _ _) m hmD hm
      have hmem : ∀ m ∈ C, cur m = adj m := by
        intro m hm
        exact hfresh m (fun D hD => hCfresh m hm D hD)
      have hext : ∀ m ∈ C, ∀ z ∈ adj m, z ∉ C →
          cur z = reachSet bound adj z \ NT := by
        intro m hm z hz hzC
        obtain ⟨D, hD, hzD⟩ := hexit done C rest hcomps m hm z hz hzC
        exact hdone z ⟨D, hD, hzD⟩
      apply ih (done ++ [C])
      · rw [hcomps]; simp
      · intro x' hx'
        show (if x' ∈ C then compFold cur C \ NT else cur x') =
          reachSet bound adj x' \ NT
        by_cases hx'C : x' ∈ C
        · rw [if_pos hx'C]
          exact comp_value adj hadj hself hbound NT C hCnd hCF hCmut cur
            hmem hext hx'C
        · rw [if_neg hx'C]
          obtain ⟨D, hD, hx'D⟩ := hx'
          rcases List.mem_append.mp hD with hD | hD
          · exact hdone x' ⟨D, hD, hx'D⟩
          · rw [List.mem_singleton] at hD
            subst hD
            exact absurd hx'D hx'C
      · intro x' hx'
        have hx'C : x' ∉ C :=
          hx' C (List.mem_append_right _ (List.mem_singleton_self C))
        show (if x' ∈ C then compFold cur C \ NT else cur x') = adj x'
        rw [if_neg hx'C]
        exact hfresh x' (fun D hD => hx' D (List.mem_append_left _ hD))

/-- The component loop of `find_first_and_epsilon`, evaluated: starting from
any successor mapping closed over a self-containing universe `F`, it
rewrites every symbol of `F` to its stripped reachability set and leaves
the rest alone.  The component order produced by `sccList` always processes
a component's external successors first, because a crossing edge strictly
shrinks the reachability set. -/
lemma closure_eval (adj : String → Finset String) {F : Finset String}
    (hadj : ∀ x ∈ F, adj x ⊆ F) (hself : ∀ x ∈ F, x ∈ adj x)
    (nodes : List String) (hnodes : ∀ x, x ∈ nodes ↔ x ∈ F)
    (hnd : nodes.Nodup) {bound : Nat} (hbound : F.card ≤ bound)
    (NT : Finset String) (x : String) :
    ((sccList bound adj nodes).foldl
        (fun cur2 C =>
          let f := compFold cur2 C \ NT
          fun s => if s ∈ C then f else cur2 s) adj) x =
      if x ∈ F then reachSet bound adj x \ NT else adj x := by
  have hn : ∀ y ∈ nodes, y ∈ F := fun y hy => (hnodes y).mp hy
  have hperm : List.Perm (sccList bound adj nodes) (sccGroups bound adj nodes) :=
    sortComps_perm _ _
  have hshape : ∀ C ∈ sccList bound adj nodes,
      ∃ a, a ∈ nodes ∧ C = sccOf bound adj nodes a :=
    fun C hC => sccGroups_shape bound adj nodes C (hperm.mem_iff.mp hC)
  have hstruct : ∀ C ∈ sccList bound adj nodes, C.Nodup ∧ (∀ m ∈ C, m ∈ F) ∧
      (∀ m ∈ C, ∀ m' ∈ C, m' ∈ reachSet bound adj m) := by
    intro C hC
    obtain ⟨a, han, rfl⟩ := hshape C hC
    refine ⟨sccOf_nodup bound adj hnd a, ?_, ?_⟩
    · intro m hm
      exact hn m (sccOf_subset_nodes bound adj nodes a hm)
    · intro m hm m' hm'
      obtain ⟨hmn, hma, ham⟩ := (mem_sccOf_iff bound adj nodes a m).mp hm
      obtain ⟨hm'n, hm'a, ham'⟩ := (mem_sccOf_iff bound adj nodes a m').mp hm'
      exact reach_trans adj hadj (hn m hmn) (hn a han) hbound ham hm'a
  have hsymm : ∀ {C D : List String}, (∀ y ∈ C, y ∉ D) → (∀ y ∈ D, y ∉ C) := by
    intro C D h y hyD hyC
    exact h y hyC hyD
  have hdisj : (sccList bound adj nodes).Pairwise (fun C D => ∀ y ∈ C, y ∉ D) :=
    (List.Perm.pairwise_iff (fun h' => hsymm h') hperm).mpr
      (sccGroups_disjoint adj hadj hbound nodes hn)
  have hsorted : (sccList bound adj nodes).Pairwise
      (fun X Y => (reachSet bound adj (X.headD "")).card ≤
        (reachSet bound adj (Y.headD "")).card) :=
    sortComps_sorted _ _
  have hkey : ∀ C ∈ sccList bound adj nodes, ∀ m ∈ C,
      (reachSet bound adj (C.headD "")).card = (reachSet bound adj m).card := by
    intro C hC m hm
    obtain ⟨hCnd, hCF, hCmut⟩ := hstruct C hC
    have hne : C ≠ [] := by
      intro h
      rw [h] at hm
      cases hm
    have hh : C.headD "" ∈ C := headD_mem C "" hne
    have h1 : reachSet bound adj (C.headD "") = reachSet bound adj m :=
      reachSet_eq_of_mut adj hadj (hCF _ hh) (hCF m hm) hbound
        (hCmut _ hh m hm) (hCmut m hm _ hh)
    rw [h1]
  have hexit : ∀ (p : List (List String)) (C : List String)
      (q : List (List String)), sccList bound adj nodes = p ++ C :: q →
      ∀ m ∈ C, ∀ z ∈ adj m, z ∉ C → ∃ D ∈ p, z ∈ D := by
    intro p C q heq m hm z hz hzC
    have hCmem : C ∈ sccList bound adj nodes := by
      rw [heq]
      exact List.mem_append_right _ (List.mem_cons_self _ _)
    obtain ⟨hCnd, hCF, hCmut⟩ := hstruct C hCmem
    have hmF : m ∈ F := hCF m hm
    have hzF : z ∈ F := hadj m hmF hz
    have hzn : z ∈ nodes := (hnodes z).mpr hzF
    obtain ⟨D, hDg, hzD⟩ := sccGroups_covers bound adj nodes z hzn
    have hDmem : D ∈ sccList bound adj nodes := hperm.mem_iff.mpr hDg
    have hDpos := hDmem
    rw [heq] at hDpos
    rcases List.mem_append.mp hDpos with hDp | hDcq
    · exact ⟨D, hDp, hzD⟩
    · exfalso
      rcases List.mem_cons.mp hDcq with rfl | hDq
      · exact hzC hzD
      · have hled : (reachSet bound adj (C.headD "")).card ≤
            (reachSet bound adj (D.headD "")).card := by
          have hs := hsorted
          rw [heq, List.pairwise_append] at hs
          have hcq := hs.2.1
          rw [List.pairwise_cons] at hcq
          exact hcq.1 D hDq
        rw [hkey C hCmem m hm, hkey D hDmem z hzD] at hled
        have hzRm : z ∈ reachSet bound adj m :=
          reach_edge adj hadj hmF hbound hz
        have hsub : reachSet bound adj z ⊆ reachSet bound adj m := by
          intro w hw
          exact reach_trans adj hadj hmF hzF hbound hzRm hw
        have hmz : m ∉ reachSet bound adj z := by
          intro hmz
          obtain ⟨a, han, hCa⟩ := hshape C hCmem
          have haF : a ∈ F := hn a han
          have hm2 : m ∈ sccOf bound adj nodes a := by rw [← hCa]; exact hm
          have hzC2 : z ∉ sccOf bound adj nodes a := by rw [← hCa]; exact hzC
          obtain ⟨hmn2, hma2, ham2⟩ :=
            (mem_sccOf_iff bound adj nodes a m).mp hm2
          have hza : z ∈ reachSet bound adj a :=
            reach_trans adj hadj haF hmF hbound hma2 hzRm
          have haz : a ∈ reachSet bound adj z :=
            reach_trans adj hadj hzF hmF hbound hmz ham2
          exact hzC2 ((mem_sccOf_iff bound adj nodes a z).mpr ⟨hzn, hza, haz⟩)
        have hss : reachSet bound adj z ⊂ reachSet bound adj m :=
          Finset.ssubset_iff_subset_ne.mpr
            ⟨hsub, fun he => hmz (by rw [he]; exact self_mem_reachSet adj bound m)⟩
        have hlt := Finset.card_lt_card hss
        omega
  have haux := comps_fold_aux adj hadj hself hbound NT
    (sccList bound adj nodes) hstruct hdisj hexit (sccList bound adj nodes)
    [] adj rfl (fun y hy => absurd hy (by simp)) (fun y _ => rfl)
  rw [haux x]
  by_cases hxF : x ∈ F
  · have hx2 : ∃ D ∈ sccList bound adj nodes, x ∈ D := by
      obtain ⟨D, hDg, hxD⟩ :=
        sccGroups_covers bound adj nodes x ((hnodes x).mpr hxF)
      exact ⟨D, hperm.mem_iff.mpr hDg, hxD⟩
    rw [if_pos hx2, if_pos hxF]
  · have hx2 : ¬∃ D ∈ sccList bound adj nodes, x ∈ D := by
      rintro ⟨D, hD, hxD⟩
      obtain ⟨a, han, rfl⟩ := hshape D hD
      exact hxF (hn x (sccOf_subset_nodes bound adj nodes a hxD))
    rw [if_neg hx2, if_neg hxF]

/-! ### Assembling the FIRST/epsilon correctness statement -/

lemma first_adj_closed {g : CFG} (hg : GoodCFG g) {st : FState}
    (hI : WInv g st) : ∀ x ∈ g.symbols, st.first x ⊆ g.symbols := by
  intro x hx y hy
  rcases hI.first_sound x y hy with ⟨rfl, _⟩ | he
  · exact hx
  · obtain ⟨r, hr, hlhs, p, hp, hpre⟩ := he
    exact (hg.1 r hr).2 y (List.getElem?_mem hp)

/-- Walks along the drained worklist FIRST mapping are exactly the
`FirstSpec` dependency walks (the self-loop edges are absorbed by
reflexivity). -/
lemma rtc_first_iff_firstSpec {g : CFG} {st : FState}
    (hI : WInv g st) (hwork : st.work = []) (x t : String) :
    Relation.ReflTransGen (adjRel st.first) x t ↔ FirstSpec g x t := by
  constructor
  · intro h
    induction h with
    | refl => exact Relation.ReflTransGen.refl
    | @tail b c hab hbc ih =>
        rcases hI.first_sound b c hbc with ⟨rfl, _⟩ | he
        · exact ih
        · exact ih.tail he
  · intro h
    refine Relation.ReflTransGen.mono ?_ h
    intro a b hab
    exact (final_first_iff hI hwork a b).mpr (Or.inr hab)

lemma step_inv {g : CFG} {u v : List String} (h : Step g u v) :
    ∃ r ∈ g.rules, ∃ α β, u = α ++ r.lhs :: β ∧ v = α ++ r.rhs ++ β := by
  obtain ⟨r, α, β, hr⟩ := h
  exact ⟨r, hr, α, β, rfl, rfl⟩

/-- A symbol that owns no position in the symbol universe has no rule, so
nothing can be derived from it. -/
lemma derives_of_no_lhs {g : CFG} (hg : GoodCFG g) {x : String}
    (hx : x ∉ g.symbols) {w : List String} (h : Derives g [x] w) :
    w = [x] := by
  rcases Relation.ReflTransGen.cases_head h with heq | ⟨v, hstep, hrest⟩
  · exact heq.symm
  · exfalso
    obtain ⟨r, hr, α, β, hu, _⟩ := step_inv hstep
    cases α with
    | nil =>
        rw [List.nil_append] at hu
        injection hu with h1 h2
        exact hx (by rw [h1]; exact (hg.1 r hr).1)
    | cons a α' =>
        rw [List.cons_append] at hu
        injection hu with h1 h2
        simp at h2

/-- The FIRST mapping `find_first_and_epsilon` returns, in closed form:
the reachability set along the worklist FIRST sets, stripped of the rule
owners, for registered symbols; empty for everything else. -/
lemma find_first_eval (g : CFG) (hg : GoodCFG g) (x : String) :
    (find_first_and_epsilon g).1 x =
      if x ∈ g.symbols then
        reachSet (g.symbols.sort (· ≤ ·)).length
            (fLoop g (fFuel g) (fInit g)).first x \ sriKeys g
      else ∅ := by
  obtain ⟨hI, hwork⟩ := worklist_final g hg
  have hadj : ∀ y ∈ g.symbols,
      (fLoop g (fFuel g) (fInit g)).first y ⊆ g.symbols :=
    first_adj_closed hg hI
  have hself : ∀ y ∈ g.symbols, y ∈ (fLoop g (fFuel g) (fInit g)).first y :=
    fun y hy => hI.first_base y hy
  have hbound : g.symbols.card ≤ (g.symbols.sort (· ≤ ·)).length :=
    le_of_eq (Finset.length_sort (· ≤ ·)).symm
  have hnodes : ∀ y, y ∈ g.symbols.sort (· ≤ ·) ↔ y ∈ g.symbols :=
    fun y => Finset.mem_sort (· ≤ ·)
  have hnd : (g.symbols.sort (· ≤ ·)).Nodup := Finset.sort_nodup (· ≤ ·) g.symbols
  have heval := closure_eval (fLoop g (fFuel g) (fInit g)).first hadj hself
    (g.symbols.sort (· ≤ ·)) hnodes hnd hbound (sriKeys g) x
  have h0 : (find_first_and_epsilon g).1 x =
      ((sccList (g.symbols.sort (· ≤ ·)).length
          (fLoop g (fFuel g) (fInit g)).first (g.symbols.sort (· ≤ ·))).foldl
        (fun cur2 C =>
          let f := compFold cur2 C \ sriKeys g
          fun s => if s ∈ C then f else cur2 s)
        (fLoop g (fFuel g) (fInit g)).first) x := rfl
  rw [h0, heval]
  by_cases hx : x ∈ g.symbols
  · rw [if_pos hx, if_pos hx]
  · rw [if_neg hx, if_neg hx]
    exact hI.first_none x hx

/-- C3: on every well-formed grammar state, `find_first_and_epsilon`
returns as its second component exactly the set of symbols deriving the
empty string, and as its first component, for every symbol, exactly the
set of apparent terminals (mentioned symbols owning no rule) that can
begin a derivation from it — in particular FIRST sets contain only
terminals. -/
theorem C3_theorem (g : CFG) (hg : GoodCFG g) :
    (∀ x, x ∈ (find_first_and_epsilon g).2 ↔ Derives g [x] []) ∧
    (∀ x t, t ∈ (find_first_and_epsilon g).1 x ↔
      (t ∈ apparent_terminals g ∧ ∃ γ, Derives g [x] (t :: γ))) := by
  obtain ⟨hI, hwork⟩ := worklist_final g hg
  constructor
  · intro x
    show x ∈ (fLoop g (fFuel g) (fInit g)).epsilon ↔ _
    rw [final_eps_iff hI hwork, nullable_iff_derives]
  · intro x t
    rw [find_first_eval g hg x]
    by_cases hx : x ∈ g.symbols
    · rw [if_pos hx, Finset.mem_sdiff]
      have hadj : ∀ y ∈ g.symbols,
          (fLoop g (fFuel g) (fInit g)).first y ⊆ g.symbols :=
        first_adj_closed hg hI
      have hbound : g.symbols.card ≤ (g.symbols.sort (· ≤ ·)).length :=
        le_of_eq (Finset.length_sort (· ≤ ·)).symm
      constructor
      · rintro ⟨hreach, hnt⟩
        have htF : t ∈ g.symbols :=
          reachSet_subset _ hadj hx _ hreach
        have hfs : FirstSpec g x t :=
          (rtc_first_iff_firstSpec hI hwork x t).mp
            ((mem_reachSet_iff _ hadj hx hbound t).mp hreach)
        obtain ⟨γ, hd⟩ := (firstSpec_iff_derives x t).mp hfs
        refine ⟨?_, γ, hd⟩
        simp only [apparent_terminals, Finset.mem_sdiff]
        exact ⟨htF, hnt⟩
      · rintro ⟨hterm, γ, hd⟩
        simp only [apparent_terminals, Finset.mem_sdiff] at hterm
        have hfs : FirstSpec g x t := (firstSpec_iff_derives x t).mpr ⟨γ, hd⟩
        exact ⟨(mem_reachSet_iff _ hadj hx hbound t).mpr
          ((rtc_first_iff_firstSpec hI hwork x t).mpr hfs), hterm.2⟩
    · rw [if_neg hx]
      simp only [Finset.not_mem_empty, false_iff]
      rintro ⟨hterm, γ, hd⟩
      have heq := derives_of_no_lhs hg hx hd
      injection heq with h1 h2
      subst h1
      simp only [apparent_terminals, Finset.mem_sdiff] at hterm
      exact hx hterm.1

/-- C3, witness: the grammar `S → A b`, `A → ε`, `A → a` is well formed,
so its computed FIRST and epsilon data match the derivation semantics. -/
theorem C3_witness :
    GoodCFG gC3 ∧
      ((∀ x, x ∈ (find_first_and_epsilon gC3).2 ↔ Derives gC3 [x] []) ∧
       (∀ x t, t ∈ (find_first_and_epsilon gC3).1 x ↔
         (t ∈ apparent_terminals gC3 ∧ ∃ γ, Derives gC3 [x] (t :: γ)))) :=
  ⟨by unfold GoodCFG; decide, C3_theorem gC3 (by unfold GoodCFG; decide)⟩

end Booze
